import Mathlib

/-!
Verification development for the `live-biz-plan` repository.

The repository's core (per its specification) is the Markdown/structured-document
round-trip converter (`serializeToMarkdown`, `parseMarkdownToJSON`), the section
extractor (`extractSections`), the section-metadata reconciliation performed in
`App.tsx` (`handleDocUpdate`, `handleSendMessage`), and the lock policy in
`processChatAndDoc`.

Embedding conventions:
* JavaScript strings are modelled as `List Char` (`Str`); `String.prototype.split('\n')`
  is `splitNl`, `trimEnd`/`trim` are `jsTrimEnd`/`jsTrim` over the JavaScript
  whitespace class `isJsWhitespace` (the set matched by `\s` and used by `trim`).
* The TipTap JSON documents flowing through the converter are modelled by the
  inductive `Block`; the serializer reads only the shapes modelled here
  (a heading's concatenated text, a paragraph's text runs with their marks,
  a list item's first text, a code block's text, a blockquote's first text),
  and the parser only ever produces these shapes.
* The parser's mutable `content` array together with its `currentList` pointer
  (which aliases an element of `content` and receives in-place appends while
  later blocks are pushed after it) is modelled by `PState`: `before` holds the
  finished prefix of `content`, and `cur = some (isBullet, items, trailing)`
  holds the still-open list plus the blocks that were pushed after it while it
  was open.  `finishPS` recovers the final `content` array.
* Timestamps (`Date.now()`) are natural numbers.  The lock-policy comparison
  `Date.now() - s.editedAt < 1000*60*2` uses truncated subtraction, which has
  the same truth value as the JavaScript signed subtraction in every case
  (a negative difference and a zero difference are both `< 120000`).
* The fallible LLM call of `processChatAndDoc` is modelled by an `Except`
  parameter: `Except.error` is a thrown `generateContent`, `Except.ok t` a
  response whose `.text` is `t` (empty string = falsy).
-/

abbrev Str := List Char

/-- The JavaScript whitespace class: the characters matched by `\s` and trimmed
by `String.prototype.trim`/`trimEnd`. -/
def isJsWhitespace (c : Char) : Bool :=
  c = ' ' || c = '\t' || c = '\n' || c = '\x0b' || c = '\x0c' || c = '\r' ||
  c = '\u00A0' || c = '\u1680' || (0x2000 ≤ c.toNat && c.toNat ≤ 0x200A) ||
  c = '\u2028' || c = '\u2029' || c = '\u202F' || c = '\u205F' || c = '\u3000' ||
  c = '\uFEFF'

/-- JavaScript `String.prototype.trimStart`. -/
def jsTrimStart (s : Str) : Str := s.dropWhile isJsWhitespace

/-- JavaScript `String.prototype.trimEnd`. -/
def jsTrimEnd (s : Str) : Str := (s.reverse.dropWhile isJsWhitespace).reverse

/-- JavaScript `String.prototype.trim`. -/
def jsTrim (s : Str) : Str := jsTrimStart (jsTrimEnd s)

/-- JavaScript `String.prototype.split('\n')`: `""` gives `[""]`, a trailing separator
gives a trailing empty part. -/
def splitNl : Str → List Str
  | [] => [[]]
  | c :: cs =>
    if c = '\n' then [] :: splitNl cs
    else
      match splitNl cs with
      | l :: ls => (c :: l) :: ls
      | [] => [[c]]

/-- Inline emphasis marks of a text run (`c.marks` in the serializer). -/
inductive Mark where
  | bold
  | italic
  | code
deriving DecidableEq

/-- A text node of a paragraph (`{type: 'text', text, marks}`). -/
structure TextRun where
  text : Str
  marks : List Mark
deriving DecidableEq

/-- One top-level TipTap node, restricted to the shapes the converter reads and
produces: a heading carries its concatenated text, a list its items' first
texts, a code block / blockquote its first text. -/
inductive Block where
  | heading (level : Nat) (text : Str)
  | paragraph (runs : List TextRun)
  | bulletList (items : List Str)
  | orderedList (items : List Str)
  | codeBlock (text : Str)
  | blockquote (text : Str)
  | horizontalRule
deriving DecidableEq

/-- Decimal rendering of a natural number, as JavaScript template interpolation
`${i + 1}` renders it. -/
def digitChar (d : Nat) : Char :=
  match d with
  | 0 => '0' | 1 => '1' | 2 => '2' | 3 => '3' | 4 => '4'
  | 5 => '5' | 6 => '6' | 7 => '7' | 8 => '8' | _ => '9'

def natCharsGo : Nat → Nat → Str
  | 0, _ => []
  | fuel + 1, n =>
    if n < 10 then [digitChar n]
    else natCharsGo fuel (n / 10) ++ [digitChar (n % 10)]

def natChars (n : Nat) : Str := natCharsGo (n + 1) n

/-- The per-run mark wrapping of the serializer's paragraph case: `c.marks` is
iterated in its stored order, each mark wrapping the text accumulated so far. -/
def runText (r : TextRun) : Str :=
  r.marks.foldl
    (fun t m =>
      match m with
      | Mark.bold => "**".toList ++ t ++ "**".toList
      | Mark.italic => "*".toList ++ t ++ "*".toList
      | Mark.code => "`".toList ++ t ++ "`".toList)
    r.text

/-- One arm of the `switch` in `serializeToMarkdown` (lib/markdownUtils,
lines 10-52).  A heading level of `0` models a falsy `attrs?.level` and
defaults to 1; an empty paragraph serializes to a single newline. -/
def serializeBlock : Block → Str
  | Block.heading level text =>
      List.replicate (if level = 0 then 1 else level) '#' ++ " ".toList ++ text
        ++ "\n\n".toList
  | Block.paragraph runs =>
      let pText := (runs.map runText).flatten
      if pText = [] then "\n".toList else pText ++ "\n\n".toList
  | Block.bulletList items =>
      List.intercalate "\n".toList (items.map (fun it => "- ".toList ++ it))
        ++ "\n\n".toList
  | Block.orderedList items =>
      List.intercalate "\n".toList
        ((items.enum).map (fun p => natChars (p.1 + 1) ++ ". ".toList ++ p.2))
        ++ "\n\n".toList
  | Block.codeBlock text => "```\n".toList ++ text ++ "\n```\n\n".toList
  | Block.blockquote text => "> ".toList ++ text ++ "\n\n".toList
  | Block.horizontalRule => "---\n\n".toList

/-- The function `serializeToMarkdown` (lib/markdownUtils, lines 7-53): serialize each block,
concatenate, and `trim()` the result. -/
def serializeToMarkdown (doc : List Block) : Str :=
  jsTrim ((doc.map serializeBlock).flatten)

/-- Scan state of `parseMarkdownToJSON`: `before` is the finished prefix of the
`content` array; `cur = some (isBullet, items, trailing)` is the list the
`currentList` variable points at, together with the blocks pushed into
`content` after it while it stayed open. -/
structure PState where
  before : List Block
  cur : Option (Bool × List Str × List Block)
deriving DecidableEq

def mkListBlock (isBullet : Bool) (items : List Str) : Block :=
  if isBullet then Block.bulletList items else Block.orderedList items

/-- Push a non-list block onto `content` (after the open list, if any). -/
def emitPS (st : PState) (b : Block) : PState :=
  match st.cur with
  | none => { st with before := st.before ++ [b] }
  | some (k, its, tr) => { st with cur := some (k, its, tr ++ [b]) }

/-- Abandon the `currentList` pointer (`currentList = null`): the open list and
everything pushed after it become part of the finished prefix. -/
def closePS (st : PState) : PState :=
  match st.cur with
  | none => st
  | some (k, its, tr) => ⟨st.before ++ [mkListBlock k its] ++ tr, none⟩

/-- The final `content` array. -/
def finishPS (st : PState) : List Block :=
  st.before ++
    (match st.cur with
     | none => []
     | some (k, its, tr) => mkListBlock k its :: tr)

/-- Bullet-list branch: append to the open bullet list, or push a fresh one. -/
def pushBullet (st : PState) (item : Str) : PState :=
  match st.cur with
  | some (true, its, tr) => { st with cur := some (true, its ++ [item], tr) }
  | _ =>
      let st1 := closePS st
      { st1 with cur := some (true, [item], []) }

/-- Ordered-list branch: append to the open ordered list, or push a fresh one. -/
def pushOrdered (st : PState) (item : Str) : PState :=
  match st.cur with
  | some (false, its, tr) => { st with cur := some (false, its ++ [item], tr) }
  | _ =>
      let st1 := closePS st
      { st1 with cur := some (false, [item], []) }

/-- Models `line.match(/^#+/)?.[0].length || 1` for a line starting with `#`. -/
def hashCount (line : Str) : Nat := (line.takeWhile (fun c => c = '#')).length

/-- Models `line.replace(/^#+\s/, '')`: remove the leading hash run and one following
whitespace character, if that whitespace character is present; otherwise the
line is unchanged. -/
def stripHeadingMark (line : Str) : Str :=
  match line.drop (hashCount line) with
  | c :: rest => if isJsWhitespace c then rest else line
  | [] => line

/-- Models the test `/^\d+\.\s/.test(line)`. -/
def orderedTest (line : Str) : Bool :=
  decide (line.takeWhile Char.isDigit ≠ []) &&
    match line.drop (line.takeWhile Char.isDigit).length with
    | '.' :: c :: _ => isJsWhitespace c
    | _ => false

/-- Models `line.replace(/^\d+\.\s/, '')` for a line passing `orderedTest`. -/
def dropOrderedMark (line : Str) : Str :=
  line.drop ((line.takeWhile Char.isDigit).length + 2)

/-- The scan loop of `parseMarkdownToJSON` (lib/markdownUtils, lines 63-144),
one call per remaining line list.  The code-fence branch consumes raw
(untrimmed) lines until one starting with a fence, mirroring the inner
`while` and the `for` increment that skips the closing fence line.  The
`fuel` argument only makes the recursion structural; it is initialised to
the number of lines, which the loop never exceeds (`parseLinesGo_fuel`). -/
def parseLinesGo : Nat → List Str → PState → List Block
  | _, [], st => finishPS st
  | 0, _ :: _, st => finishPS st
  | fuel + 1, l :: rest, st =>
    if jsTrimEnd l = [] then parseLinesGo fuel rest st
    else if (jsTrimEnd l).head? = some '#' then
      parseLinesGo fuel rest
        (emitPS st (Block.heading (hashCount (jsTrimEnd l))
          (stripHeadingMark (jsTrimEnd l))))
    else if ("- ".toList).isPrefixOf (jsTrimEnd l)
        || ("* ".toList).isPrefixOf (jsTrimEnd l) then
      parseLinesGo fuel rest (pushBullet st ((jsTrimEnd l).drop 2))
    else if orderedTest (jsTrimEnd l) then
      parseLinesGo fuel rest (pushOrdered st (dropOrderedMark (jsTrimEnd l)))
    else if ("> ".toList).isPrefixOf (jsTrimEnd l) then
      parseLinesGo fuel rest
        (emitPS (closePS st) (Block.blockquote ((jsTrimEnd l).drop 2)))
    else if ("```".toList).isPrefixOf (jsTrimEnd l) then
      parseLinesGo fuel
        ((rest.dropWhile (fun x => !(("```".toList).isPrefixOf x))).drop 1)
        (emitPS (closePS st) (Block.codeBlock (jsTrim
          (((rest.takeWhile (fun x => !(("```".toList).isPrefixOf x))).map
            (fun x => x ++ ['\n'])).flatten))))
    else if jsTrimEnd l = "---".toList ∨ jsTrimEnd l = "***".toList then
      parseLinesGo fuel rest (emitPS (closePS st) Block.horizontalRule)
    else
      parseLinesGo fuel rest (emitPS (closePS st) (Block.paragraph [⟨jsTrimEnd l, []⟩]))

def parseLines (ls : List Str) (st : PState) : List Block :=
  parseLinesGo ls.length ls st

/-- The function `parseMarkdownToJSON` (lib/markdownUtils, lines 57-150), returning the
`content` array of the produced document node. -/
def parseMarkdownToJSON (markdown : Str) : List Block :=
  parseLines (splitNl markdown) ⟨[], none⟩

/-- Models `l.replace(/^#\s/, '')`: remove one leading `#` and one following
whitespace character when present. -/
def stripOneHash (l : Str) : Str :=
  match l with
  | '#' :: c :: rest => if isJsWhitespace c then rest else '#' :: c :: rest
  | _ => l

/-- The function `extractSections` (lib/markdownUtils, lines 152-157). -/
def extractSections (markdown : Str) : List Str :=
  ((splitNl markdown).filter (fun l => ("# ".toList).isPrefixOf l)).map
    (fun l => jsTrim (stripOneHash l))

/-- The interface `SectionMeta` (types.ts). -/
structure SectionMeta where
  id : Str
  editedAt : Nat
  locked : Bool
deriving DecidableEq

/-- The interface `DocumentState` (types.ts); `json` is the parsed block list. -/
structure DocumentState where
  markdown : Str
  json : List Block
  sections : List SectionMeta
  lastUpdated : Nat
deriving DecidableEq

/-- The section-metadata reconciliation mapping performed inline in `App.tsx`:
with `editedByUser = true` this is the `newSectionsMeta` map of
`handleDocUpdate` (lines 101-106, `{...existing, editedAt: now}`), with
`editedByUser = false` the `newSections` map of `handleSendMessage`
(lines 63-68, `{...existing}`). -/
def reconcileSections (prev : List SectionMeta) (titles : List Str) (now : Nat)
    (editedByUser : Bool) : List SectionMeta :=
  titles.map (fun t =>
    match prev.find? (fun s => s.id == t) with
    | some m => if editedByUser then { m with editedAt := now } else m
    | none => ⟨t, now, false⟩)

/-- The handler `handleDocUpdate` (App.tsx, lines 91-116): the state update applied to the
previous `docState` for a user edit `(newMarkdown, newJson)` at time `now`. -/
def handleDocUpdate (prev : DocumentState) (newMarkdown : Str)
    (newJson : List Block) (now : Nat) : DocumentState :=
  if prev.markdown = newMarkdown then prev
  else
    { markdown := newMarkdown
      json := newJson
      sections := reconcileSections prev.sections (extractSections newMarkdown) now true
      lastUpdated := now }

/-- The lock predicate of `processChatAndDoc` (services/gemini, lines 19-21):
`s.locked || (Date.now() - s.editedAt < 1000 * 60 * 2 && s.editedAt > 0)`. -/
def sectionLockPred (now : Nat) (s : SectionMeta) : Bool :=
  s.locked || (decide (now - s.editedAt < 1000 * 60 * 2) && decide (s.editedAt > 0))

/-- The `lockedSections` list of `processChatAndDoc`. -/
def lockedSectionIds (now : Nat) (meta : List SectionMeta) : List Str :=
  (meta.filter (sectionLockPred now)).map (fun s => s.id)

/-- Document-update step of `processChatAndDoc` (services/gemini, lines 37-48):
`updatedMarkdown` starts as `currentMarkdown`; a thrown call is caught and
leaves it unchanged; a falsy (empty) response text also leaves it unchanged. -/
def updatedMarkdownAfter (currentMarkdown : Str) (docText : Except Unit Str) : Str :=
  match docText with
  | Except.error _ => currentMarkdown
  | Except.ok t => if t = [] then currentMarkdown else t

/-- The `setDocState` update of `handleSendMessage` (App.tsx, lines 54-78),
applied when `result.updatedDocumentMarkdown` is truthy (nonempty). -/
def handleSendMessageDoc (prev : DocumentState) (updated : Str) (now : Nat) :
    DocumentState :=
  if updated = [] then prev
  else
    { markdown := updated
      json := parseMarkdownToJSON updated
      sections := reconcileSections prev.sections (extractSections updated) now false
      lastUpdated := now }

/-- The document-state effect of one `handleSendMessage` round trip whose
document-update call had outcome `docText`. -/
def sessionAfterSend (prev : DocumentState) (docText : Except Unit Str)
    (now : Nat) : DocumentState :=
  handleSendMessageDoc prev (updatedMarkdownAfter prev.markdown docText) now

/-- Both end characters (when present) are outside the JavaScript whitespace
class, so `trim`/`trimEnd` leave the string unchanged. -/
def endsNonWs (t : Str) : Bool :=
  (match t.head? with | some c => !(isJsWhitespace c) | none => true) &&
  (match t.getLast? with | some c => !(isJsWhitespace c) | none => true)

/-- A text that survives the line-oriented round trip: nonempty, free of
newlines, and with no whitespace at either end. -/
def lineOk (t : Str) : Bool :=
  decide (t ≠ []) && t.all (fun c => !(decide (c = '\n'))) && endsNonWs t

/-- A paragraph text that no parser branch other than the paragraph fallback
claims. -/
def plainLineOk (t : Str) : Bool :=
  lineOk t &&
  !(decide (t.head? = some '#')) &&
  !(("- ".toList).isPrefixOf t) && !(("* ".toList).isPrefixOf t) &&
  !(orderedTest t) &&
  !(("> ".toList).isPrefixOf t) && !(("```".toList).isPrefixOf t) &&
  !(decide (t = "---".toList)) && !(decide (t = "***".toList))

/-- Well-formedness of a block of the supported subset, under which the
serialize-then-parse round trip reproduces the block. -/
def wfBlock : Block → Bool
  | Block.heading l t => decide (1 ≤ l) && decide (l ≤ 3) && lineOk t
  | Block.paragraph runs =>
    match runs with
    | [r] => decide (r.marks = []) && plainLineOk r.text
    | _ => false
  | Block.bulletList items => decide (items ≠ []) && items.all lineOk
  | Block.orderedList items => decide (items ≠ []) && items.all lineOk
  | Block.codeBlock t =>
      endsNonWs t && (splitNl t).all (fun x => !(("```".toList).isPrefixOf x))
  | Block.blockquote t => lineOk t
  | Block.horizontalRule => true

/-- The open-list kind of a parser state. -/
def curKindPS (st : PState) : Option Bool := st.cur.map (fun c => c.1)

/-- Scan-level safety: starting with an open list of kind `k`, no list block of
the sequence is adjacent (across headings only) to an open list of the same
kind, so the parser never merges two input lists into one. -/
def listSafeFrom : Option Bool → List Block → Bool
  | _, [] => true
  | k, Block.heading _ _ :: bs => listSafeFrom k bs
  | k, Block.bulletList _ :: bs => !(decide (k = some true)) && listSafeFrom (some true) bs
  | k, Block.orderedList _ :: bs => !(decide (k = some false)) && listSafeFrom (some false) bs
  | _, _ :: bs => listSafeFrom none bs

/-- The parser-state transition effected by the serialized lines of one
well-formed block. -/
def stepPS (st : PState) (b : Block) : PState :=
  match b with
  | Block.heading _ _ => emitPS st b
  | Block.bulletList items => ⟨(closePS st).before, some (true, items, [])⟩
  | Block.orderedList items => ⟨(closePS st).before, some (false, items, [])⟩
  | _ => emitPS (closePS st) b

/-- The serialization `serializeBlock` without its trailing blank-line separator (for a
well-formed block). -/
def blockBody : Block → Str
  | Block.heading level text =>
      List.replicate (if level = 0 then 1 else level) '#' ++ " ".toList ++ text
  | Block.paragraph runs => (runs.map runText).flatten
  | Block.bulletList items =>
      List.intercalate "\n".toList (items.map (fun it => "- ".toList ++ it))
  | Block.orderedList items =>
      List.intercalate "\n".toList
        ((items.enum).map (fun p => natChars (p.1 + 1) ++ ". ".toList ++ p.2))
  | Block.codeBlock text => "```\n".toList ++ text ++ "\n```".toList
  | Block.blockquote text => "> ".toList ++ text
  | Block.horizontalRule => "---".toList

/-- The serialized document before the final `trim`: block bodies joined by
blank-line separators. -/
def docBody : List Block → Str
  | [] => []
  | [b] => blockBody b
  | b :: bs => blockBody b ++ "\n\n".toList ++ docBody bs

/-- The scan-state transition of `listSafeFrom`, per block kind. -/
def nextKind (k : Option Bool) : Block → Option Bool
  | Block.heading _ _ => k
  | Block.bulletList _ => some true
  | Block.orderedList _ => some false
  | _ => none

theorem isJsWhitespace_nl : isJsWhitespace '\n' = true := by decide

theorem isJsWhitespace_space : isJsWhitespace ' ' = true := by decide

theorem endsNonWs_iff {t : Str} : endsNonWs t = true ↔
    (∀ c ∈ t.head?, isJsWhitespace c = false) ∧
    (∀ c ∈ t.getLast?, isJsWhitespace c = false) := by
  unfold endsNonWs
  cases h1 : t.head? <;> cases h2 : t.getLast? <;>
    simp [Bool.and_eq_true, Option.mem_def]

theorem lineOk_iff {t : Str} : lineOk t = true ↔
    t ≠ [] ∧ (∀ c ∈ t, ¬ c = '\n') ∧
    (∀ c ∈ t.head?, isJsWhitespace c = false) ∧
    (∀ c ∈ t.getLast?, isJsWhitespace c = false) := by
  unfold lineOk
  simp [Bool.and_eq_true, List.all_eq_true, endsNonWs_iff, and_assoc]

theorem jsTrimStart_eq_self {s : Str}
    (h : ∀ c ∈ s.head?, isJsWhitespace c = false) : jsTrimStart s = s := by
  cases s with
  | nil => rfl
  | cons a l =>
    have ha : isJsWhitespace a = false := h a rfl
    simp [jsTrimStart, List.dropWhile_cons, ha]

theorem jsTrimEnd_eq_self {s : Str}
    (h : ∀ c ∈ s.getLast?, isJsWhitespace c = false) : jsTrimEnd s = s := by
  have h' : ∀ c ∈ s.reverse.head?, isJsWhitespace c = false := by
    intro c hc
    rw [List.head?_reverse] at hc
    exact h c hc
  have hd : s.reverse.dropWhile isJsWhitespace = s.reverse := by
    have := jsTrimStart_eq_self h'
    simpa [jsTrimStart] using this
  simp [jsTrimEnd, hd]

theorem jsTrim_eq_self {s : Str}
    (h1 : ∀ c ∈ s.head?, isJsWhitespace c = false)
    (h2 : ∀ c ∈ s.getLast?, isJsWhitespace c = false) : jsTrim s = s := by
  unfold jsTrim
  rw [jsTrimEnd_eq_self h2, jsTrimStart_eq_self h1]

theorem jsTrimEnd_append_ws {s u : Str}
    (hu : ∀ c ∈ u, isJsWhitespace c = true)
    (h : ∀ c ∈ s.getLast?, isJsWhitespace c = false) :
    jsTrimEnd (s ++ u) = s := by
  unfold jsTrimEnd
  rw [List.reverse_append]
  have hu' : u.reverse.dropWhile isJsWhitespace = [] := by
    rw [List.dropWhile_eq_nil_iff]
    intro x hx
    exact hu x (List.mem_reverse.mp hx)
  have hs : s.reverse.dropWhile isJsWhitespace = s.reverse := by
    have h' : ∀ c ∈ s.reverse.head?, isJsWhitespace c = false := by
      intro c hc
      rw [List.head?_reverse] at hc
      exact h c hc
    have := jsTrimStart_eq_self h'
    simpa [jsTrimStart] using this
  rw [List.dropWhile_append, hu']
  simp [hs]

theorem jsTrim_append_ws {s u : Str}
    (hu : ∀ c ∈ u, isJsWhitespace c = true)
    (h1 : ∀ c ∈ s.head?, isJsWhitespace c = false)
    (h2 : ∀ c ∈ s.getLast?, isJsWhitespace c = false) :
    jsTrim (s ++ u) = s := by
  unfold jsTrim
  rw [jsTrimEnd_append_ws hu h2, jsTrimStart_eq_self h1]

theorem splitNl_ne_nil (s : Str) : splitNl s ≠ [] := by
  induction s with
  | nil => simp [splitNl]
  | cons c cs ih =>
    simp only [splitNl]
    split
    · simp
    · rcases h : splitNl cs with _ | ⟨l, ls⟩
      · simp
      · simp [h]

theorem splitNl_append_nl (a b : Str) :
    splitNl (a ++ '\n' :: b) = splitNl a ++ splitNl b := by
  induction a with
  | nil => simp [splitNl]
  | cons c cs ih =>
    show splitNl (c :: (cs ++ '\n' :: b)) = splitNl (c :: cs) ++ splitNl b
    by_cases hc : c = '\n'
    · subst hc
      simp [splitNl, ih]
    · rcases h : splitNl cs with _ | ⟨l, ls⟩
      · exact absurd h (splitNl_ne_nil cs)
      · simp only [splitNl, if_neg hc, ih, h, List.cons_append]

theorem splitNl_no_nl {s : Str} (h : ∀ c ∈ s, ¬ c = '\n') : splitNl s = [s] := by
  induction s with
  | nil => rfl
  | cons c cs ih =>
    have hc : ¬ c = '\n' := h c (List.mem_cons_self c cs)
    have ih' := ih (fun x hx => h x (List.mem_cons_of_mem _ hx))
    simp [splitNl, hc, ih']

theorem splitNl_flatten (t : Str) :
    ((splitNl t).map (fun x => x ++ ['\n'])).flatten = t ++ ['\n'] := by
  induction t with
  | nil => rfl
  | cons c cs ih =>
    simp only [splitNl]
    split
    · next hc =>
        subst hc
        simp [ih]
    · next hc =>
        rcases h : splitNl cs with _ | ⟨l, ls⟩
        · exact absurd h (splitNl_ne_nil cs)
        · rw [h] at ih
          simp only [h, List.map_cons, List.flatten_cons, List.cons_append,
            List.append_assoc, List.singleton_append] at ih ⊢
          rw [ih]

theorem intercalate_nl_cons₂ (x y : Str) (tl : List Str) :
    List.intercalate "\n".toList (x :: y :: tl) =
      x ++ '\n' :: List.intercalate "\n".toList (y :: tl) := by
  simp [List.intercalate, List.intersperse_cons₂]

theorem intercalate_nl_single (x : Str) :
    List.intercalate "\n".toList [x] = x := by
  simp [List.intercalate]

theorem splitNl_intercalate {ls : List Str} (hne : ls ≠ [])
    (h : ∀ l ∈ ls, ∀ c ∈ l, ¬ c = '\n') :
    splitNl (List.intercalate "\n".toList ls) = ls := by
  induction ls with
  | nil => exact absurd rfl hne
  | cons x tl ih =>
    cases tl with
    | nil =>
        rw [intercalate_nl_single]
        exact splitNl_no_nl (h x (List.mem_cons_self x []))
    | cons y tl' =>
        rw [intercalate_nl_cons₂, splitNl_append_nl]
        rw [splitNl_no_nl (h x (List.mem_cons_self x _))]
        rw [ih (by simp) (fun l hl => h l (List.mem_cons_of_mem _ hl))]
        rfl

theorem digitChar_mem_digits (d : Nat) : digitChar d ∈ "0123456789".toList := by
  unfold digitChar
  split <;> decide

theorem natCharsGo_fuel : ∀ (f : Nat) (n : Nat), n < f →
    natCharsGo f n = natChars n := by
  intro f
  induction f using Nat.strong_induction_on with
  | _ f ih =>
    intro n hn
    cases f with
    | zero => omega
    | succ f2 =>
        by_cases h10 : n < 10
        · unfold natChars
          rw [show natCharsGo (f2 + 1) n = if n < 10 then [digitChar n]
              else natCharsGo f2 (n / 10) ++ [digitChar (n % 10)] from rfl,
            show natCharsGo (n + 1) n = if n < 10 then [digitChar n]
              else natCharsGo n (n / 10) ++ [digitChar (n % 10)] from rfl,
            if_pos h10, if_pos h10]
        · have hd : n / 10 < n := Nat.div_lt_self (by omega) (by omega)
          unfold natChars
          rw [show natCharsGo (f2 + 1) n = if n < 10 then [digitChar n]
              else natCharsGo f2 (n / 10) ++ [digitChar (n % 10)] from rfl,
            show natCharsGo (n + 1) n = if n < 10 then [digitChar n]
              else natCharsGo n (n / 10) ++ [digitChar (n % 10)] from rfl,
            if_neg h10, if_neg h10]
          rw [ih f2 (by omega) (n / 10) (by omega),
            ih n (by omega) (n / 10) hd]

theorem natChars_eq (n : Nat) : natChars n =
    if n < 10 then [digitChar n]
    else natChars (n / 10) ++ [digitChar (n % 10)] := by
  by_cases h10 : n < 10
  · rw [if_pos h10]
    show natCharsGo (n + 1) n = _
    rw [show natCharsGo (n + 1) n = if n < 10 then [digitChar n]
        else natCharsGo n (n / 10) ++ [digitChar (n % 10)] from rfl, if_pos h10]
  · have hd : n / 10 < n := Nat.div_lt_self (by omega) (by omega)
    rw [if_neg h10]
    show natCharsGo (n + 1) n = _
    rw [show natCharsGo (n + 1) n = if n < 10 then [digitChar n]
        else natCharsGo n (n / 10) ++ [digitChar (n % 10)] from rfl, if_neg h10,
      natCharsGo_fuel n (n / 10) hd]

theorem natChars_subset_digits (n : Nat) :
    ∀ c ∈ natChars n, c ∈ "0123456789".toList := by
  induction n using Nat.strong_induction_on with
  | _ n ih =>
    intro c hc
    rw [natChars_eq] at hc
    split at hc
    · next _ =>
        simp only [List.mem_singleton] at hc
        subst hc
        exact digitChar_mem_digits n
    · next h =>
        rw [List.mem_append] at hc
        rcases hc with hc | hc
        · exact ih (n / 10) (Nat.div_lt_self (by omega) (by omega)) c hc
        · simp only [List.mem_singleton] at hc
          subst hc
          exact digitChar_mem_digits _

theorem digit_char_facts {c : Char} (h : c ∈ "0123456789".toList) :
    Char.isDigit c = true ∧ isJsWhitespace c = false ∧ ¬ c = '\n' ∧ ¬ c = '#' ∧
    ¬ c = '-' ∧ ¬ c = '*' ∧ ¬ c = '>' ∧ ¬ c = '`' := by
  fin_cases h <;> decide

theorem natChars_ne_nil (n : Nat) : natChars n ≠ [] := by
  rw [natChars_eq]
  split
  · simp
  · simp

theorem closePS_before (st : PState) : (closePS st).before = finishPS st := by
  rcases st with ⟨bef, _ | ⟨k, its, tr⟩⟩ <;> simp [closePS, finishPS]

theorem closePS_cur (st : PState) : (closePS st).cur = none := by
  rcases st with ⟨bef, _ | ⟨k, its, tr⟩⟩ <;> simp [closePS]

theorem finishPS_emitPS (st : PState) (b : Block) :
    finishPS (emitPS st b) = finishPS st ++ [b] := by
  rcases st with ⟨bef, _ | ⟨k, its, tr⟩⟩ <;> simp [emitPS, finishPS]

theorem finishPS_closePS (st : PState) : finishPS (closePS st) = finishPS st := by
  rcases st with ⟨bef, _ | ⟨k, its, tr⟩⟩ <;> simp [closePS, finishPS, mkListBlock]

theorem finishPS_stepPS (st : PState) (b : Block) :
    finishPS (stepPS st b) = finishPS st ++ [b] := by
  cases b with
  | heading l t => simp [stepPS, finishPS_emitPS]
  | bulletList items =>
      simp [stepPS, finishPS, closePS_before, mkListBlock]
  | orderedList items =>
      simp [stepPS, finishPS, closePS_before, mkListBlock]
  | paragraph runs => simp [stepPS, finishPS_emitPS, finishPS_closePS]
  | codeBlock t => simp [stepPS, finishPS_emitPS, finishPS_closePS]
  | blockquote t => simp [stepPS, finishPS_emitPS, finishPS_closePS]
  | horizontalRule => simp [stepPS, finishPS_emitPS, finishPS_closePS]

theorem finishPS_foldl_stepPS (bs : List Block) :
    ∀ st : PState, finishPS (List.foldl stepPS st bs) = finishPS st ++ bs := by
  induction bs with
  | nil => intro st; simp
  | cons b bs ih =>
      intro st
      rw [List.foldl_cons, ih, finishPS_stepPS, List.append_assoc]
      rfl

theorem curKindPS_emitPS (st : PState) (b : Block) :
    curKindPS (emitPS st b) = curKindPS st := by
  rcases st with ⟨bef, _ | ⟨k, its, tr⟩⟩ <;> simp [emitPS, curKindPS]

theorem parseLinesGo_fuel : ∀ (f : Nat) (ls : List Str) (st : PState),
    ls.length ≤ f → parseLinesGo f ls st = parseLines ls st := by
  intro f
  induction f using Nat.strong_induction_on with
  | _ f ih =>
    intro ls st hle
    cases ls with
    | nil => cases f <;> rfl
    | cons l rest =>
        cases f with
        | zero => simp at hle
        | succ f2 =>
            have hr : rest.length ≤ f2 := by simpa using hle
            unfold parseLines
            rw [List.length_cons, parseLinesGo, parseLinesGo]
            have hlen : ((rest.dropWhile
                (fun x => !(("```".toList).isPrefixOf x))).drop 1).length
                ≤ rest.length := by
              have h := (List.dropWhile_sublist
                (fun x => !(("```".toList).isPrefixOf x)) (l := rest)).length_le
              rw [List.length_drop]
              exact le_trans (Nat.sub_le _ _) h
            split_ifs <;>
              first
                | exact (ih f2 (by omega) rest _ hr).trans
                    (ih rest.length (by omega) rest _ (le_refl _)).symm
                | exact (ih f2 (by omega) _ _ (le_trans hlen hr)).trans
                    (ih rest.length (by omega) _ _ hlen).symm

theorem parseLines_cons (l : Str) (rest : List Str) (st : PState) :
    parseLines (l :: rest) st =
      (if jsTrimEnd l = [] then parseLines rest st
      else if (jsTrimEnd l).head? = some '#' then
        parseLines rest
          (emitPS st (Block.heading (hashCount (jsTrimEnd l))
            (stripHeadingMark (jsTrimEnd l))))
      else if ("- ".toList).isPrefixOf (jsTrimEnd l)
          || ("* ".toList).isPrefixOf (jsTrimEnd l) then
        parseLines rest (pushBullet st ((jsTrimEnd l).drop 2))
      else if orderedTest (jsTrimEnd l) then
        parseLines rest (pushOrdered st (dropOrderedMark (jsTrimEnd l)))
      else if ("> ".toList).isPrefixOf (jsTrimEnd l) then
        parseLines rest
          (emitPS (closePS st) (Block.blockquote ((jsTrimEnd l).drop 2)))
      else if ("```".toList).isPrefixOf (jsTrimEnd l) then
        parseLinesGo rest.length
          ((rest.dropWhile (fun x => !(("```".toList).isPrefixOf x))).drop 1)
          (emitPS (closePS st) (Block.codeBlock (jsTrim
            (((rest.takeWhile (fun x => !(("```".toList).isPrefixOf x))).map
              (fun x => x ++ ['\n'])).flatten))))
      else if jsTrimEnd l = "---".toList ∨ jsTrimEnd l = "***".toList then
        parseLines rest (emitPS (closePS st) Block.horizontalRule)
      else
        parseLines rest (emitPS (closePS st) (Block.paragraph [⟨jsTrimEnd l, []⟩]))) := by
  unfold parseLines
  rw [List.length_cons, parseLinesGo]

theorem parseLines_nil (st : PState) : parseLines [] st = finishPS st := rfl

theorem parseLines_blank {l : Str} (hl : jsTrimEnd l = []) (rest : List Str)
    (st : PState) : parseLines (l :: rest) st = parseLines rest st := by
  rw [parseLines_cons, if_pos hl]

theorem getLast?_append_right {a t : Str} (h : ¬ t = []) :
    (a ++ t).getLast? = t.getLast? := by
  rw [List.getLast?_append]
  rcases ht : t.getLast? with _ | y
  · rw [List.getLast?_eq_none_iff] at ht
    exact absurd ht h
  · rfl

theorem head?_append_left {a t : Str} (h : ¬ a = []) :
    (a ++ t).head? = a.head? := by
  rw [List.head?_append]
  rcases ha : a.head? with _ | y
  · rw [List.head?_eq_none_iff] at ha
    exact absurd ha h
  · rfl

theorem jsTrimEnd_append_stable {a t : Str} (ht : ¬ t = [])
    (h : ∀ c ∈ t.getLast?, isJsWhitespace c = false) :
    jsTrimEnd (a ++ t) = a ++ t := by
  refine jsTrimEnd_eq_self ?_
  rw [getLast?_append_right ht]
  exact h

theorem parseLines_heading {l : Str} (hl : jsTrimEnd l = l) (h0 : ¬ l = [])
    (hh : l.head? = some '#') (rest : List Str) (st : PState) :
    parseLines (l :: rest) st =
      parseLines rest
        (emitPS st (Block.heading (hashCount l) (stripHeadingMark l))) := by
  rw [parseLines_cons, hl, if_neg h0, if_pos hh]

theorem parseLines_bullet {l : Str} (hl : jsTrimEnd l = l) (h0 : ¬ l = [])
    (hh : ¬ l.head? = some '#')
    (hb : ("- ".toList).isPrefixOf l = true) (rest : List Str) (st : PState) :
    parseLines (l :: rest) st = parseLines rest (pushBullet st (l.drop 2)) := by
  rw [parseLines_cons, hl, if_neg h0, if_neg hh, if_pos (by rw [hb]; simp)]

theorem parseLines_ordered {l : Str} (hl : jsTrimEnd l = l) (h0 : ¬ l = [])
    (hh : ¬ l.head? = some '#')
    (hb1 : ("- ".toList).isPrefixOf l = false)
    (hb2 : ("* ".toList).isPrefixOf l = false)
    (ho : orderedTest l = true) (rest : List Str) (st : PState) :
    parseLines (l :: rest) st =
      parseLines rest (pushOrdered st (dropOrderedMark l)) := by
  rw [parseLines_cons, hl, if_neg h0, if_neg hh, if_neg (by rw [hb1, hb2]; simp), if_pos ho]

theorem parseLines_quote {l : Str} (hl : jsTrimEnd l = l) (h0 : ¬ l = [])
    (hh : ¬ l.head? = some '#')
    (hb1 : ("- ".toList).isPrefixOf l = false)
    (hb2 : ("* ".toList).isPrefixOf l = false)
    (ho : orderedTest l = false)
    (hq : ("> ".toList).isPrefixOf l = true) (rest : List Str) (st : PState) :
    parseLines (l :: rest) st =
      parseLines rest (emitPS (closePS st) (Block.blockquote (l.drop 2))) := by
  rw [parseLines_cons, hl, if_neg h0, if_neg hh, if_neg (by rw [hb1, hb2]; simp),
    if_neg (by rw [ho]; simp), if_pos hq]

theorem parseLines_fence {l : Str} (hl : jsTrimEnd l = l) (h0 : ¬ l = [])
    (hh : ¬ l.head? = some '#')
    (hb1 : ("- ".toList).isPrefixOf l = false)
    (hb2 : ("* ".toList).isPrefixOf l = false)
    (ho : orderedTest l = false)
    (hq : ("> ".toList).isPrefixOf l = false)
    (hf : ("```".toList).isPrefixOf l = true) (rest : List Str) (st : PState) :
    parseLines (l :: rest) st =
      parseLines ((rest.dropWhile (fun x => !(("```".toList).isPrefixOf x))).drop 1)
        (emitPS (closePS st) (Block.codeBlock (jsTrim
          (((rest.takeWhile (fun x => !(("```".toList).isPrefixOf x))).map
            (fun x => x ++ ['\n'])).flatten)))) := by
  rw [parseLines_cons, hl, if_neg h0, if_neg hh, if_neg (by rw [hb1, hb2]; simp),
    if_neg (by rw [ho]; simp), if_neg (by rw [hq]; simp), if_pos hf]
  refine parseLinesGo_fuel _ _ _ ?_
  have h := (List.dropWhile_sublist
    (fun x => !(("```".toList).isPrefixOf x)) (l := rest)).length_le
  rw [List.length_drop]
  exact le_trans (Nat.sub_le _ _) h

theorem parseLines_para {l : Str} (hl : jsTrimEnd l = l) (h0 : ¬ l = [])
    (hh : ¬ l.head? = some '#')
    (hb1 : ("- ".toList).isPrefixOf l = false)
    (hb2 : ("* ".toList).isPrefixOf l = false)
    (ho : orderedTest l = false)
    (hq : ("> ".toList).isPrefixOf l = false)
    (hf : ("```".toList).isPrefixOf l = false)
    (hd : ¬ (l = "---".toList ∨ l = "***".toList)) (rest : List Str) (st : PState) :
    parseLines (l :: rest) st =
      parseLines rest (emitPS (closePS st) (Block.paragraph [⟨l, []⟩])) := by
  rw [parseLines_cons, hl, if_neg h0, if_neg hh, if_neg (by rw [hb1, hb2]; simp),
    if_neg (by rw [ho]; simp), if_neg (by rw [hq]; simp), if_neg (by rw [hf]; simp), if_neg hd]

theorem parseLines_hr (rest : List Str) (st : PState) :
    parseLines ("---".toList :: rest) st =
      parseLines rest (emitPS (closePS st) Block.horizontalRule) := by
  have h1 : jsTrimEnd ("---".toList) = "---".toList := by decide
  rw [parseLines_cons, h1, if_neg (by decide), if_neg (by decide), if_neg (by decide),
    if_neg (by decide), if_neg (by decide), if_neg (by decide), if_pos (by decide)]

theorem heading_line_facts {k : Nat} {t : Str} (ht : lineOk t = true) :
    hashCount ((List.replicate (k + 1) '#' ++ [' ']) ++ t) = k + 1 ∧
    stripHeadingMark ((List.replicate (k + 1) '#' ++ [' ']) ++ t) = t := by
  obtain ⟨hne, hnl, hhd, hlast⟩ := lineOk_iff.mp ht
  have hcount : hashCount ((List.replicate (k + 1) '#' ++ [' ']) ++ t) = k + 1 := by
    unfold hashCount
    rw [List.append_assoc, List.singleton_append]
    rw [List.takeWhile_append_of_pos
      (by intro a ha; rw [List.eq_of_mem_replicate ha]; decide)]
    rw [List.takeWhile_cons_of_neg (by decide)]
    simp
  refine ⟨hcount, ?_⟩
  unfold stripHeadingMark
  rw [hcount, List.append_assoc, List.singleton_append,
    List.drop_left' (by simp : (List.replicate (k + 1) '#').length = k + 1)]
  simp [isJsWhitespace_space]

theorem step_heading {level : Nat} {t : Str} (h1 : 1 ≤ level)
    (ht : lineOk t = true) (rest : List Str) (st : PState) :
    parseLines (splitNl (blockBody (Block.heading level t)) ++ rest) st =
      parseLines rest (stepPS st (Block.heading level t)) := by
  obtain ⟨hne, hnl, hhd, hlast⟩ := lineOk_iff.mp ht
  obtain ⟨k, rfl⟩ : ∃ k, level = k + 1 := ⟨level - 1, by omega⟩
  have hbody : blockBody (Block.heading (k + 1) t)
      = (List.replicate (k + 1) '#' ++ [' ']) ++ t := by
    show (List.replicate (if k + 1 = 0 then 1 else k + 1) '#' ++ " ".toList) ++ t
      = (List.replicate (k + 1) '#' ++ [' ']) ++ t
    norm_num
  have hnonl : ∀ c ∈ (List.replicate (k + 1) '#' ++ [' ']) ++ t, ¬ c = '\n' := by
    intro c hc
    rcases List.mem_append.mp hc with hc | hc
    · rcases List.mem_append.mp hc with hc | hc
      · rw [List.eq_of_mem_replicate hc]; decide
      · rcases List.mem_singleton.mp hc with rfl; decide
    · exact hnl c hc
  rw [hbody, splitNl_no_nl hnonl, List.singleton_append]
  have hstable := jsTrimEnd_append_stable (a := List.replicate (k + 1) '#' ++ [' '])
    hne hlast
  have hLne : ¬ ((List.replicate (k + 1) '#' ++ [' ']) ++ t) = [] := by simp
  have hhead : ((List.replicate (k + 1) '#' ++ [' ']) ++ t).head? = some '#' := by
    rw [head?_append_left (by simp), head?_append_left (by simp),
      List.head?_replicate]
    simp
  obtain ⟨hcount, hstrip⟩ := heading_line_facts (k := k) ht
  rw [parseLines_heading hstable hLne hhead, hcount, hstrip]
  rfl

theorem isPrefixOf_cons_cons (a b : Char) (as bs : Str) :
    (a :: as).isPrefixOf (b :: bs) = ((a == b) && as.isPrefixOf bs) := rfl

theorem isPrefixOf_cons_head {a : Char} {as : Str} {b : Char} {bs : Str}
    (h : ¬ a = b) : (a :: as).isPrefixOf (b :: bs) = false := by
  rw [isPrefixOf_cons_cons]
  simp [h]

theorem orderedTest_cons_not_digit {c : Char} (hc : Char.isDigit c = false)
    (rest : Str) : orderedTest (c :: rest) = false := by
  unfold orderedTest
  rw [List.takeWhile_cons_of_neg (by simp [hc])]
  simp

theorem plainLineOk_unpack {t : Str} (h : plainLineOk t = true) :
    lineOk t = true ∧ ¬ t.head? = some '#' ∧
    ("- ".toList).isPrefixOf t = false ∧ ("* ".toList).isPrefixOf t = false ∧
    orderedTest t = false ∧ ("> ".toList).isPrefixOf t = false ∧
    ("```".toList).isPrefixOf t = false ∧
    ¬ (t = "---".toList ∨ t = "***".toList) := by
  unfold plainLineOk at h
  simp only [Bool.and_eq_true, Bool.not_eq_true', decide_eq_false_iff_not,
    decide_eq_true_eq] at h
  obtain ⟨⟨⟨⟨⟨⟨⟨⟨h1, h2⟩, h3⟩, h4⟩, h5⟩, h6⟩, h7⟩, h8⟩, h9⟩ := h
  exact ⟨h1, h2, h3, h4, h5, h6, h7, by tauto⟩

theorem step_para {t : Str} (h : plainLineOk t = true) (rest : List Str)
    (st : PState) :
    parseLines (splitNl (blockBody (Block.paragraph [⟨t, []⟩])) ++ rest) st =
      parseLines rest (stepPS st (Block.paragraph [⟨t, []⟩])) := by
  obtain ⟨hok, hh, hb1, hb2, ho, hq, hf, hd⟩ := plainLineOk_unpack h
  obtain ⟨hne, hnl, hhd, hlast⟩ := lineOk_iff.mp hok
  have hbody : blockBody (Block.paragraph [⟨t, []⟩]) = t := by
    simp [blockBody, runText]
  rw [hbody, splitNl_no_nl hnl, List.singleton_append]
  rw [parseLines_para (jsTrimEnd_eq_self hlast) hne hh hb1 hb2 ho hq hf hd]
  rfl

theorem step_quote {t : Str} (h : lineOk t = true) (rest : List Str)
    (st : PState) :
    parseLines (splitNl (blockBody (Block.blockquote t)) ++ rest) st =
      parseLines rest (stepPS st (Block.blockquote t)) := by
  obtain ⟨hne, hnl, hhd, hlast⟩ := lineOk_iff.mp h
  have hbody : blockBody (Block.blockquote t) = "> ".toList ++ t := rfl
  have hnonl : ∀ c ∈ "> ".toList ++ t, ¬ c = '\n' := by
    intro c hc
    rcases List.mem_append.mp hc with hc | hc
    · rcases hc with _ | ⟨_, _ | ⟨_, h⟩⟩
      · decide
      · decide
      · cases h
    · exact hnl c hc
  rw [hbody, splitNl_no_nl hnonl, List.singleton_append]
  have e1 : jsTrimEnd ("> ".toList ++ t) = "> ".toList ++ t :=
    jsTrimEnd_append_stable hne hlast
  have e2 : ¬ ("> ".toList ++ t) = [] := by simp
  have e3 : ¬ ("> ".toList ++ t).head? = some '#' := by
    rw [head?_append_left (by decide)]
    decide
  have e4 : ("- ".toList).isPrefixOf ("> ".toList ++ t) = false := by
    show ('-' :: (' ' :: ([] : Str))).isPrefixOf ('>' :: (' ' :: t)) = false
    exact isPrefixOf_cons_head (by decide)
  have e5 : ("* ".toList).isPrefixOf ("> ".toList ++ t) = false := by
    show ('*' :: (' ' :: ([] : Str))).isPrefixOf ('>' :: (' ' :: t)) = false
    exact isPrefixOf_cons_head (by decide)
  have e6 : orderedTest ("> ".toList ++ t) = false := by
    show orderedTest ('>' :: (' ' :: t)) = false
    exact orderedTest_cons_not_digit (by decide) (' ' :: t)
  have e7 : ("> ".toList).isPrefixOf ("> ".toList ++ t) = true := by
    rw [List.isPrefixOf_iff_prefix]
    exact List.prefix_append _ _
  rw [parseLines_quote e1 e2 e3 e4 e5 e6 e7]
  rfl

theorem step_hr (rest : List Str) (st : PState) :
    parseLines (splitNl (blockBody Block.horizontalRule) ++ rest) st =
      parseLines rest (stepPS st Block.horizontalRule) := by
  have hbody : blockBody Block.horizontalRule = "---".toList := rfl
  have hsplit : splitNl ("---".toList) = ["---".toList] := by decide
  rw [hbody, hsplit, List.singleton_append, parseLines_hr]
  rfl

theorem bullet_items_run (items : List Str)
    (h : ∀ it ∈ items, lineOk it = true) :
    ∀ (rest : List Str) (bef : List Block) (its : List Str) (tr : List Block),
    parseLines ((items.map (fun it => "- ".toList ++ it)) ++ rest)
      ⟨bef, some (true, its, tr)⟩ =
    parseLines rest ⟨bef, some (true, its ++ items, tr)⟩ := by
  induction items with
  | nil => intro rest bef its tr; simp
  | cons i is ih =>
      intro rest bef its tr
      obtain ⟨hne, hnl, hhd, hlast⟩ := lineOk_iff.mp (h i (List.mem_cons_self i is))
      rw [List.map_cons, List.cons_append]
      have e1 : jsTrimEnd ("- ".toList ++ i) = "- ".toList ++ i :=
        jsTrimEnd_append_stable hne hlast
      have e2 : ¬ ("- ".toList ++ i) = [] := by simp
      have e3 : ¬ ("- ".toList ++ i).head? = some '#' := by
        rw [head?_append_left (by decide)]
        decide
      have e4 : ("- ".toList).isPrefixOf ("- ".toList ++ i) = true := by
        rw [List.isPrefixOf_iff_prefix]
        exact List.prefix_append _ _
      rw [parseLines_bullet e1 e2 e3 e4]
      have e5 : pushBullet ⟨bef, some (true, its, tr)⟩ (("- ".toList ++ i).drop 2)
          = ⟨bef, some (true, its ++ [i], tr)⟩ := rfl
      rw [e5, ih (fun it hit => h it (List.mem_cons_of_mem _ hit))]
      rw [List.append_assoc]
      rfl

theorem step_bullet {items : List Str} (hne : items ≠ [])
    (h : ∀ it ∈ items, lineOk it = true) (rest : List Str) (st : PState)
    (hsafe : ¬ curKindPS st = some true) :
    parseLines (splitNl (blockBody (Block.bulletList items)) ++ rest) st =
      parseLines rest (stepPS st (Block.bulletList items)) := by
  have hlines : splitNl (blockBody (Block.bulletList items))
      = items.map (fun it => "- ".toList ++ it) := by
    unfold blockBody
    refine splitNl_intercalate (by simpa using hne) ?_
    intro l hl c hc
    obtain ⟨it, hit, rfl⟩ := List.mem_map.mp hl
    rcases List.mem_append.mp hc with hc | hc
    · rcases hc with _ | ⟨_, _ | ⟨_, hx⟩⟩
      · decide
      · decide
      · cases hx
    · exact (lineOk_iff.mp (h it hit)).2.1 c hc
  rw [hlines]
  rcases items with _ | ⟨i, is⟩
  · exact absurd rfl hne
  obtain ⟨hine, hinl, hihd, hilast⟩ := lineOk_iff.mp (h i (List.mem_cons_self i is))
  rw [List.map_cons, List.cons_append]
  have e1 : jsTrimEnd ("- ".toList ++ i) = "- ".toList ++ i :=
    jsTrimEnd_append_stable hine hilast
  have e2 : ¬ ("- ".toList ++ i) = [] := by simp
  have e3 : ¬ ("- ".toList ++ i).head? = some '#' := by
    rw [head?_append_left (by decide)]
    decide
  have e4 : ("- ".toList).isPrefixOf ("- ".toList ++ i) = true := by
    rw [List.isPrefixOf_iff_prefix]
    exact List.prefix_append _ _
  rw [parseLines_bullet e1 e2 e3 e4]
  have e5 : pushBullet st (("- ".toList ++ i).drop 2)
      = ⟨(closePS st).before, some (true, [i], [])⟩ := by
    rcases st with ⟨bef, _ | ⟨⟨k, its, tr⟩⟩⟩
    · rfl
    · rcases k with _ | _
      · rfl
      · exact absurd (by simp [curKindPS]) hsafe
  rw [e5, bullet_items_run is (fun it hit => h it (List.mem_cons_of_mem _ hit))]
  rfl

theorem snd_mem_of_mem_enumFrom {l : List Str} {p : Nat × Str} :
    ∀ {n : Nat}, p ∈ List.enumFrom n l → p.2 ∈ l := by
  induction l with
  | nil => intro n h; cases h
  | cons a as ih =>
      intro n h
      rw [List.enumFrom_cons] at h
      rcases List.mem_cons.mp h with rfl | h
      · exact List.mem_cons_self a as
      · exact List.mem_cons_of_mem _ (ih h)

theorem natChars_no_nl {n : Nat} : ∀ c ∈ natChars n, ¬ c = '\n' :=
  fun c hc => (digit_char_facts (natChars_subset_digits n c hc)).2.2.1

theorem ordered_line_facts {n : Nat} {it : Str} (hit : lineOk it = true) :
    jsTrimEnd ((natChars n ++ ". ".toList) ++ it) = (natChars n ++ ". ".toList) ++ it ∧
    ¬ ((natChars n ++ ". ".toList) ++ it) = [] ∧
    ¬ ((natChars n ++ ". ".toList) ++ it).head? = some '#' ∧
    ("- ".toList).isPrefixOf ((natChars n ++ ". ".toList) ++ it) = false ∧
    ("* ".toList).isPrefixOf ((natChars n ++ ". ".toList) ++ it) = false ∧
    orderedTest ((natChars n ++ ". ".toList) ++ it) = true ∧
    dropOrderedMark ((natChars n ++ ". ".toList) ++ it) = it := by
  obtain ⟨hne, hnl, hhd, hlast⟩ := lineOk_iff.mp hit
  obtain ⟨d, ds, hnc⟩ : ∃ d ds, natChars n = d :: ds := by
    rcases hx : natChars n with _ | ⟨d, ds⟩
    · exact absurd hx (natChars_ne_nil n)
    · exact ⟨d, ds, rfl⟩
  have hd : d ∈ "0123456789".toList :=
    natChars_subset_digits n d (hnc ▸ List.mem_cons_self d ds)
  obtain ⟨hdig, hws, hnnl, hhash, hdash, hstar, hgt, hbq⟩ := digit_char_facts hd
  have hdigits : ∀ a ∈ natChars n, Char.isDigit a = true :=
    fun a ha => (digit_char_facts (natChars_subset_digits n a ha)).1
  have htw : ((natChars n ++ ". ".toList) ++ it).takeWhile Char.isDigit
      = natChars n := by
    rw [List.append_assoc]
    rw [show (". ".toList ++ it) = '.' :: (' ' :: it) from rfl]
    rw [List.takeWhile_append_of_pos hdigits,
      List.takeWhile_cons_of_neg (by decide)]
    simp
  have hdr : ((natChars n ++ ". ".toList) ++ it).drop (natChars n).length
      = '.' :: (' ' :: it) := by
    rw [List.append_assoc, show (". ".toList ++ it) = '.' :: (' ' :: it) from rfl,
      List.drop_left' rfl]
  refine ⟨?_, ?_, ?_, ?_, ?_, ?_, ?_⟩
  · exact jsTrimEnd_append_stable hne hlast
  · simp [hnc]
  · rw [hnc, head?_append_left (by simp), head?_append_left (by simp),
      List.head?_cons]
    intro hcontra
    exact hhash (Option.some.inj hcontra)
  · rw [hnc, List.append_assoc, List.cons_append]
    exact isPrefixOf_cons_head (fun hh => hdash hh.symm)
  · rw [hnc, List.append_assoc, List.cons_append]
    exact isPrefixOf_cons_head (fun hh => hstar hh.symm)
  · unfold orderedTest
    rw [htw, hdr]
    simp [natChars_ne_nil n, isJsWhitespace_space]
  · unfold dropOrderedMark
    rw [htw, ← List.drop_drop, hdr]
    rfl

theorem ordered_items_run (items : List Str)
    (h : ∀ it ∈ items, lineOk it = true) :
    ∀ (k : Nat) (rest : List Str) (bef : List Block) (its : List Str)
      (tr : List Block),
    parseLines (((List.enumFrom k items).map
        (fun p => natChars (p.1 + 1) ++ ". ".toList ++ p.2)) ++ rest)
      ⟨bef, some (false, its, tr)⟩ =
    parseLines rest ⟨bef, some (false, its ++ items, tr)⟩ := by
  induction items with
  | nil => intro k rest bef its tr; simp
  | cons i is ih =>
      intro k rest bef its tr
      obtain ⟨e1, e2, e3, e4, e5, e6, e7⟩ :=
        ordered_line_facts (n := k + 1) (lineOk_iff.mpr
          (lineOk_iff.mp (h i (List.mem_cons_self i is))))
      rw [List.enumFrom_cons, List.map_cons, List.cons_append]
      rw [parseLines_ordered e1 e2 e3 e4 e5 e6]
      rw [e7]
      have e8 : pushOrdered ⟨bef, some (false, its, tr)⟩ i
          = ⟨bef, some (false, its ++ [i], tr)⟩ := rfl
      rw [e8, ih (fun it hit => h it (List.mem_cons_of_mem _ hit))]
      rw [List.append_assoc]
      rfl

theorem step_ordered {items : List Str} (hne : items ≠ [])
    (h : ∀ it ∈ items, lineOk it = true) (rest : List Str) (st : PState)
    (hsafe : ¬ curKindPS st = some false) :
    parseLines (splitNl (blockBody (Block.orderedList items)) ++ rest) st =
      parseLines rest (stepPS st (Block.orderedList items)) := by
  have hlines : splitNl (blockBody (Block.orderedList items))
      = (items.enum).map (fun p => natChars (p.1 + 1) ++ ". ".toList ++ p.2) := by
    unfold blockBody
    refine splitNl_intercalate (by simp [List.enum_eq_enumFrom, hne]) ?_
    intro l hl c hc
    obtain ⟨p, hp, rfl⟩ := List.mem_map.mp hl
    rcases List.mem_append.mp hc with hc | hc
    · rcases List.mem_append.mp hc with hc | hc
      · exact natChars_no_nl c hc
      · rcases hc with _ | ⟨_, _ | ⟨_, hx⟩⟩
        · decide
        · decide
        · cases hx
    · exact (lineOk_iff.mp
        (h p.2 (snd_mem_of_mem_enumFrom (l := items) hp))).2.1 c hc
  rw [hlines]
  rcases items with _ | ⟨i, is⟩
  · exact absurd rfl hne
  obtain ⟨e1, e2, e3, e4, e5, e6, e7⟩ :=
    ordered_line_facts (n := 0 + 1) (lineOk_iff.mpr
      (lineOk_iff.mp (h i (List.mem_cons_self i is))))
  rw [List.enum_eq_enumFrom, List.enumFrom_cons, List.map_cons, List.cons_append]
  rw [parseLines_ordered e1 e2 e3 e4 e5 e6]
  rw [e7]
  have e8 : pushOrdered st i = ⟨(closePS st).before, some (false, [i], [])⟩ := by
    rcases st with ⟨bef, _ | ⟨⟨k, its, tr⟩⟩⟩
    · rfl
    · rcases k with _ | _
      · exact absurd (by simp [curKindPS]) hsafe
      · rfl
  rw [e8, ordered_items_run is (fun it hit => h it (List.mem_cons_of_mem _ hit))]
  rfl

theorem step_code {t : Str} (hends : endsNonWs t = true)
    (hfence : (splitNl t).all (fun x => !(("```".toList).isPrefixOf x)) = true)
    (rest : List Str) (st : PState) :
    parseLines (splitNl (blockBody (Block.codeBlock t)) ++ rest) st =
      parseLines rest (stepPS st (Block.codeBlock t)) := by
  obtain ⟨hhd, hlast⟩ := endsNonWs_iff.mp hends
  have hsplit : splitNl (blockBody (Block.codeBlock t))
      = "```".toList :: (splitNl t ++ ["```".toList]) := by
    have h1 := splitNl_append_nl ("```".toList) (t ++ '\n' :: "```".toList)
    have h2 := splitNl_append_nl t ("```".toList)
    have h3 : splitNl ("```".toList) = ["```".toList] := by decide
    calc splitNl (blockBody (Block.codeBlock t))
        = splitNl ("```".toList ++ '\n' :: (t ++ '\n' :: "```".toList)) := rfl
      _ = ["```".toList] ++ (splitNl t ++ ["```".toList]) := by rw [h1, h2, h3]
      _ = "```".toList :: (splitNl t ++ ["```".toList]) := rfl
  rw [hsplit, List.cons_append]
  have e1 : jsTrimEnd ("```".toList) = "```".toList := by decide
  rw [parseLines_fence e1 (by decide) (by decide) (by decide) (by decide)
    (by decide) (by decide) (by decide)]
  have hall : ∀ x ∈ splitNl t, (!(("```".toList).isPrefixOf x)) = true := by
    rw [List.all_eq_true] at hfence
    exact fun x hx => hfence x hx
  have htake : (((splitNl t ++ ["```".toList]) ++ rest).takeWhile
      (fun x => !(("```".toList).isPrefixOf x))) = splitNl t := by
    rw [List.append_assoc, List.singleton_append,
      List.takeWhile_append_of_pos hall,
      List.takeWhile_cons_of_neg (by decide)]
    simp
  have hdrop : ((((splitNl t ++ ["```".toList]) ++ rest).dropWhile
      (fun x => !(("```".toList).isPrefixOf x))).drop 1) = rest := by
    rw [List.append_assoc, List.singleton_append,
      List.dropWhile_append_of_pos hall,
      List.dropWhile_cons_of_neg (by decide)]
    simp
  rw [htake, hdrop, splitNl_flatten]
  have hws : ∀ c ∈ (['\n'] : Str), isJsWhitespace c = true := by
    intro c hc
    rcases List.mem_singleton.mp hc with rfl
    exact isJsWhitespace_nl
  rw [jsTrim_append_ws hws hhd hlast]
  rfl

theorem closePS_cur_none (st : PState) : curKindPS (closePS st) = none := by
  rcases st with ⟨bef, _ | ⟨k, its, tr⟩⟩ <;> rfl

theorem curKindPS_stepPS (st : PState) (b : Block) :
    curKindPS (stepPS st b) = nextKind (curKindPS st) b := by
  cases b with
  | heading l t => exact curKindPS_emitPS st _
  | bulletList items => rfl
  | orderedList items => rfl
  | paragraph runs => rw [show stepPS st (Block.paragraph runs)
      = emitPS (closePS st) (Block.paragraph runs) from rfl,
      curKindPS_emitPS, closePS_cur_none]; rfl
  | codeBlock t => rw [show stepPS st (Block.codeBlock t)
      = emitPS (closePS st) (Block.codeBlock t) from rfl,
      curKindPS_emitPS, closePS_cur_none]; rfl
  | blockquote t => rw [show stepPS st (Block.blockquote t)
      = emitPS (closePS st) (Block.blockquote t) from rfl,
      curKindPS_emitPS, closePS_cur_none]; rfl
  | horizontalRule => rw [show stepPS st Block.horizontalRule
      = emitPS (closePS st) Block.horizontalRule from rfl,
      curKindPS_emitPS, closePS_cur_none]; rfl

theorem listSafeFrom_cons {k : Option Bool} {b : Block} {bs : List Block}
    (h : listSafeFrom k (b :: bs) = true) :
    (∀ items, b = Block.bulletList items → ¬ k = some true) ∧
    (∀ items, b = Block.orderedList items → ¬ k = some false) ∧
    listSafeFrom (nextKind k b) bs = true := by
  cases b with
  | heading l t =>
      refine ⟨fun _ hx => Block.noConfusion hx, fun _ hx => Block.noConfusion hx, ?_⟩
      exact h
  | bulletList items =>
      rw [show listSafeFrom k (Block.bulletList items :: bs)
          = (!(decide (k = some true)) && listSafeFrom (some true) bs) from rfl,
        Bool.and_eq_true] at h
      refine ⟨fun _ _ => (by simpa using h.1), fun _ hx => Block.noConfusion hx, h.2⟩
  | orderedList items =>
      rw [show listSafeFrom k (Block.orderedList items :: bs)
          = (!(decide (k = some false)) && listSafeFrom (some false) bs) from rfl,
        Bool.and_eq_true] at h
      refine ⟨fun _ hx => Block.noConfusion hx, fun _ _ => (by simpa using h.1), h.2⟩
  | paragraph runs =>
      exact ⟨fun _ hx => Block.noConfusion hx, fun _ hx => Block.noConfusion hx, h⟩
  | codeBlock t =>
      exact ⟨fun _ hx => Block.noConfusion hx, fun _ hx => Block.noConfusion hx, h⟩
  | blockquote t =>
      exact ⟨fun _ hx => Block.noConfusion hx, fun _ hx => Block.noConfusion hx, h⟩
  | horizontalRule =>
      exact ⟨fun _ hx => Block.noConfusion hx, fun _ hx => Block.noConfusion hx, h⟩

theorem step_block {b : Block} (hwf : wfBlock b = true) (rest : List Str)
    (st : PState)
    (hsafe1 : ∀ items, b = Block.bulletList items → ¬ curKindPS st = some true)
    (hsafe2 : ∀ items, b = Block.orderedList items → ¬ curKindPS st = some false) :
    parseLines (splitNl (blockBody b) ++ rest) st =
      parseLines rest (stepPS st b) := by
  cases b with
  | heading l t =>
      unfold wfBlock at hwf
      simp only [Bool.and_eq_true, decide_eq_true_eq] at hwf
      exact step_heading hwf.1.1 hwf.2 rest st
  | paragraph runs =>
      rcases runs with _ | ⟨r, rs⟩
      · exact absurd hwf (by simp [wfBlock])
      rcases rs with _ | ⟨r2, rs2⟩
      · rcases r with ⟨t, marks⟩
        unfold wfBlock at hwf
        simp only [Bool.and_eq_true, decide_eq_true_eq] at hwf
        obtain ⟨hm, hp⟩ := hwf
        subst hm
        exact step_para hp rest st
      · exact absurd hwf (by simp [wfBlock])
  | bulletList items =>
      unfold wfBlock at hwf
      simp only [Bool.and_eq_true, decide_eq_true_eq] at hwf
      refine step_bullet hwf.1 ?_ rest st (hsafe1 items rfl)
      intro it hit
      simpa using (List.all_eq_true.mp hwf.2) it hit
  | orderedList items =>
      unfold wfBlock at hwf
      simp only [Bool.and_eq_true, decide_eq_true_eq] at hwf
      refine step_ordered hwf.1 ?_ rest st (hsafe2 items rfl)
      intro it hit
      simpa using (List.all_eq_true.mp hwf.2) it hit
  | codeBlock t =>
      unfold wfBlock at hwf
      simp only [Bool.and_eq_true] at hwf
      exact step_code hwf.1 hwf.2 rest st
  | blockquote t =>
      exact step_quote hwf rest st
  | horizontalRule =>
      exact step_hr rest st

theorem parse_docBody (bs : List Block) :
    ∀ st : PState, (∀ b ∈ bs, wfBlock b = true) →
    listSafeFrom (curKindPS st) bs = true →
    parseLines (splitNl (docBody bs)) st = finishPS (List.foldl stepPS st bs) := by
  induction bs with
  | nil =>
      intro st _ _
      show parseLines (splitNl []) st = finishPS st
      rw [show splitNl ([] : Str) = [[]] from rfl,
        parseLines_blank (l := []) rfl, parseLines_nil]
  | cons b bs ih =>
      intro st hwf hsafe
      obtain ⟨hs1, hs2, hs3⟩ := listSafeFrom_cons hsafe
      have hwfb : wfBlock b = true := hwf b (List.mem_cons_self b bs)
      have hwfr : ∀ x ∈ bs, wfBlock x = true :=
        fun x hx => hwf x (List.mem_cons_of_mem _ hx)
      cases bs with
      | nil =>
          show parseLines (splitNl (blockBody b)) st = _
          have := step_block hwfb [] st hs1 hs2
          rw [List.append_nil] at this
          rw [this, parseLines_nil]
          rfl
      | cons b2 bs2 =>
          show parseLines (splitNl (blockBody b ++ "\n\n".toList
            ++ docBody (b2 :: bs2))) st = _
          have hshape : blockBody b ++ "\n\n".toList ++ docBody (b2 :: bs2)
              = blockBody b ++ '\n' :: ('\n' :: docBody (b2 :: bs2)) := by
            rw [List.append_assoc]
            rfl
          rw [hshape, splitNl_append_nl,
            show splitNl ('\n' :: docBody (b2 :: bs2))
              = [] :: splitNl (docBody (b2 :: bs2)) from rfl]
          rw [step_block hwfb ([] :: splitNl (docBody (b2 :: bs2))) st hs1 hs2]
          rw [parseLines_blank (l := []) rfl]
          rw [ih (stepPS st b) hwfr (by rw [curKindPS_stepPS]; exact hs3)]
          rfl

theorem serializeBlock_eq_body {b : Block} (hwf : wfBlock b = true) :
    serializeBlock b = blockBody b ++ "\n\n".toList := by
  cases b with
  | heading l t => rfl
  | paragraph runs =>
      rcases runs with _ | ⟨r, rs⟩
      · exact absurd hwf (by simp [wfBlock])
      rcases rs with _ | ⟨r2, rs2⟩
      · rcases r with ⟨t, marks⟩
        unfold wfBlock at hwf
        simp only [Bool.and_eq_true, decide_eq_true_eq] at hwf
        obtain ⟨hm, hp⟩ := hwf
        subst hm
        obtain ⟨hne, _, _, _⟩ := lineOk_iff.mp (plainLineOk_unpack hp).1
        show (if ([⟨t, []⟩].map runText).flatten = [] then "\n".toList
          else ([⟨t, []⟩].map runText).flatten ++ "\n\n".toList) = _
        rw [if_neg (by simpa [runText] using hne)]
        rfl
      · exact absurd hwf (by simp [wfBlock])
  | bulletList items => rfl
  | orderedList items => rfl
  | codeBlock t =>
      show "```\n".toList ++ t ++ "\n```\n\n".toList
        = ("```\n".toList ++ t ++ "\n```".toList) ++ "\n\n".toList
      rw [List.append_assoc, List.append_assoc]
      rfl
  | blockquote t => rfl
  | horizontalRule => rfl

theorem intercalate_nl_ends {ls : List Str} (hne : ls ≠ [])
    (h1 : ∀ l ∈ ls, ¬ l = [])
    (hh : ∀ l ∈ ls, ∀ c ∈ l.head?, isJsWhitespace c = false)
    (hl : ∀ l ∈ ls, ∀ c ∈ l.getLast?, isJsWhitespace c = false) :
    ¬ List.intercalate "\n".toList ls = [] ∧
    (∀ c ∈ (List.intercalate "\n".toList ls).head?, isJsWhitespace c = false) ∧
    (∀ c ∈ (List.intercalate "\n".toList ls).getLast?, isJsWhitespace c = false) := by
  induction ls with
  | nil => exact absurd rfl hne
  | cons x tl ih =>
      cases tl with
      | nil =>
          rw [intercalate_nl_single]
          exact ⟨h1 x (List.mem_cons_self x []), hh x (List.mem_cons_self x []),
            hl x (List.mem_cons_self x [])⟩
      | cons y tl2 =>
          rw [intercalate_nl_cons₂]
          obtain ⟨hI1, hI2, hI3⟩ := ih (by simp)
            (fun l hl' => h1 l (List.mem_cons_of_mem _ hl'))
            (fun l hl' => hh l (List.mem_cons_of_mem _ hl'))
            (fun l hl' => hl l (List.mem_cons_of_mem _ hl'))
          refine ⟨by simp, ?_, ?_⟩
          · rw [head?_append_left (h1 x (List.mem_cons_self x _))]
            exact hh x (List.mem_cons_self x _)
          · rw [getLast?_append_right (by simp),
              show ('\n' :: List.intercalate "\n".toList (y :: tl2))
                = ['\n'] ++ List.intercalate "\n".toList (y :: tl2) from rfl,
              getLast?_append_right hI1]
            exact hI3

theorem forall_mem_some {ch : Char} (h : isJsWhitespace ch = false) :
    ∀ c ∈ some ch, isJsWhitespace c = false := by
  intro c hc
  rw [Option.mem_def, Option.some.injEq] at hc
  subst hc
  exact h

theorem natChars_head_facts (n : Nat) :
    ∃ d ds, natChars n = d :: ds ∧ isJsWhitespace d = false := by
  obtain ⟨d, ds, hnc⟩ : ∃ d ds, natChars n = d :: ds := by
    rcases hx : natChars n with _ | ⟨d, ds⟩
    · exact absurd hx (natChars_ne_nil n)
    · exact ⟨d, ds, rfl⟩
  refine ⟨d, ds, hnc, ?_⟩
  exact (digit_char_facts (natChars_subset_digits n d
    (hnc ▸ List.mem_cons_self d ds))).2.1

theorem blockBody_ends {b : Block} (hwf : wfBlock b = true) :
    ¬ blockBody b = [] ∧
    (∀ c ∈ (blockBody b).head?, isJsWhitespace c = false) ∧
    (∀ c ∈ (blockBody b).getLast?, isJsWhitespace c = false) := by
  cases b with
  | heading l t =>
      unfold wfBlock at hwf
      simp only [Bool.and_eq_true, decide_eq_true_eq] at hwf
      obtain ⟨hne, _, _, hlast⟩ := lineOk_iff.mp hwf.2
      have hl1 : ¬ (if l = 0 then 1 else l) = 0 := by
        rcases hwf.1 with ⟨h1, _⟩
        split <;> omega
      have hrep : ¬ List.replicate (if l = 0 then 1 else l) '#' = [] := by
        simp [hl1]
      refine ⟨by simp [blockBody, hne], ?_, ?_⟩
      · show ∀ c ∈ ((List.replicate (if l = 0 then 1 else l) '#' ++ " ".toList)
          ++ t).head?, isJsWhitespace c = false
        rw [head?_append_left (by simp [hl1]), head?_append_left hrep,
          List.head?_replicate, if_neg hl1]
        exact forall_mem_some (by decide)
      · show ∀ c ∈ ((List.replicate (if l = 0 then 1 else l) '#' ++ " ".toList)
          ++ t).getLast?, isJsWhitespace c = false
        rw [getLast?_append_right hne]
        exact hlast
  | paragraph runs =>
      rcases runs with _ | ⟨r, rs⟩
      · exact absurd hwf (by simp [wfBlock])
      rcases rs with _ | ⟨r2, rs2⟩
      · rcases r with ⟨t, marks⟩
        unfold wfBlock at hwf
        simp only [Bool.and_eq_true, decide_eq_true_eq] at hwf
        obtain ⟨hm, hp⟩ := hwf
        subst hm
        obtain ⟨hne, _, hhd, hlast⟩ := lineOk_iff.mp (plainLineOk_unpack hp).1
        have hb : blockBody (Block.paragraph [⟨t, []⟩]) = t := by
          simp [blockBody, runText]
        rw [hb]
        exact ⟨hne, hhd, hlast⟩
      · exact absurd hwf (by simp [wfBlock])
  | bulletList items =>
      unfold wfBlock at hwf
      simp only [Bool.and_eq_true, decide_eq_true_eq] at hwf
      refine intercalate_nl_ends (by simpa using hwf.1) ?_ ?_ ?_
      · intro l hml
        obtain ⟨it, hit, rfl⟩ := List.mem_map.mp hml
        simp
      · intro l hml
        obtain ⟨it, hit, rfl⟩ := List.mem_map.mp hml
        rw [head?_append_left (by decide),
          show ("- ".toList).head? = some '-' from rfl]
        exact forall_mem_some (by decide)
      · intro l hml
        obtain ⟨it, hit, rfl⟩ := List.mem_map.mp hml
        obtain ⟨hne, _, _, hlast⟩ := lineOk_iff.mp
          (by simpa using (List.all_eq_true.mp hwf.2) it hit)
        rw [getLast?_append_right hne]
        exact hlast
  | orderedList items =>
      unfold wfBlock at hwf
      simp only [Bool.and_eq_true, decide_eq_true_eq] at hwf
      refine intercalate_nl_ends
        (by simp [List.enum_eq_enumFrom]; simpa using hwf.1) ?_ ?_ ?_
      · intro l hml
        obtain ⟨p, hp, rfl⟩ := List.mem_map.mp hml
        obtain ⟨d, ds, hnc, _⟩ := natChars_head_facts (p.1 + 1)
        simp [hnc]
      · intro l hml
        obtain ⟨p, hp, rfl⟩ := List.mem_map.mp hml
        obtain ⟨d, ds, hnc, hdws⟩ := natChars_head_facts (p.1 + 1)
        rw [show natChars (p.1 + 1) ++ ". ".toList ++ p.2
            = (natChars (p.1 + 1) ++ ". ".toList) ++ p.2 from rfl,
          head?_append_left (by simp [hnc]), head?_append_left (by simp [hnc]),
          hnc, List.head?_cons]
        exact forall_mem_some hdws
      · intro l hml
        obtain ⟨p, hp, rfl⟩ := List.mem_map.mp hml
        have hlok : lineOk p.2 = true := by
          have hm := List.all_eq_true.mp hwf.2 p.2 (snd_mem_of_mem_enumFrom hp)
          simpa using hm
        obtain ⟨hne, _, _, hlast⟩ := lineOk_iff.mp hlok
        rw [show natChars (p.1 + 1) ++ ". ".toList ++ p.2
            = (natChars (p.1 + 1) ++ ". ".toList) ++ p.2 from rfl,
          getLast?_append_right hne]
        exact hlast
  | codeBlock t =>
      refine ⟨?_, ?_, ?_⟩
      · simp [blockBody]
      · show ∀ c ∈ (("```\n".toList ++ t) ++ "\n```".toList).head?,
          isJsWhitespace c = false
        rw [head?_append_left (by simp), head?_append_left (by decide),
          show ("```\n".toList).head? = some '`' from rfl]
        exact forall_mem_some (by decide)
      · show ∀ c ∈ (("```\n".toList ++ t) ++ "\n```".toList).getLast?,
          isJsWhitespace c = false
        rw [getLast?_append_right (by decide),
          show ("\n```".toList).getLast? = some '`' from by decide]
        exact forall_mem_some (by decide)
  | blockquote t =>
      obtain ⟨hne, _, hhd, hlast⟩ := lineOk_iff.mp hwf
      refine ⟨by simp [blockBody], ?_, ?_⟩
      · show ∀ c ∈ ("> ".toList ++ t).head?, isJsWhitespace c = false
        rw [head?_append_left (by decide),
          show ("> ".toList).head? = some '>' from rfl]
        exact forall_mem_some (by decide)
      · show ∀ c ∈ ("> ".toList ++ t).getLast?, isJsWhitespace c = false
        rw [getLast?_append_right hne]
        exact hlast
  | horizontalRule =>
      refine ⟨by decide, ?_, ?_⟩
      · show ∀ c ∈ ("---".toList).head?, isJsWhitespace c = false
        rw [show ("---".toList).head? = some '-' from rfl]
        exact forall_mem_some (by decide)
      · show ∀ c ∈ ("---".toList).getLast?, isJsWhitespace c = false
        rw [show ("---".toList).getLast? = some '-' from by decide]
        exact forall_mem_some (by decide)

theorem docBody_ends {bs : List Block} (h : ∀ b ∈ bs, wfBlock b = true)
    (hne : bs ≠ []) :
    ¬ docBody bs = [] ∧
    (∀ c ∈ (docBody bs).head?, isJsWhitespace c = false) ∧
    (∀ c ∈ (docBody bs).getLast?, isJsWhitespace c = false) := by
  induction bs with
  | nil => exact absurd rfl hne
  | cons b tl ih =>
      obtain ⟨hb1, hb2, hb3⟩ := blockBody_ends (h b (List.mem_cons_self b tl))
      cases tl with
      | nil => exact ⟨hb1, hb2, hb3⟩
      | cons b2 tl2 =>
          obtain ⟨hI1, hI2, hI3⟩ := ih
            (fun x hx => h x (List.mem_cons_of_mem _ hx)) (by simp)
          have hd : docBody (b :: b2 :: tl2)
              = (blockBody b ++ "\n\n".toList) ++ docBody (b2 :: tl2) := by
            show blockBody b ++ "\n\n".toList ++ docBody (b2 :: tl2) = _
            rw [List.append_assoc]
          rw [hd]
          refine ⟨by simp [hb1], ?_, ?_⟩
          · rw [head?_append_left (by simp [hb1]), head?_append_left hb1]
            exact hb2
          · rw [getLast?_append_right hI1]
            exact hI3

theorem flatten_serialize {bs : List Block} (h : ∀ b ∈ bs, wfBlock b = true)
    (hne : bs ≠ []) :
    (bs.map serializeBlock).flatten = docBody bs ++ "\n\n".toList := by
  induction bs with
  | nil => exact absurd rfl hne
  | cons b tl ih =>
      cases tl with
      | nil =>
          show serializeBlock b ++ [] = blockBody b ++ "\n\n".toList
          rw [List.append_nil, serializeBlock_eq_body (h b (List.mem_cons_self b []))]
      | cons b2 tl2 =>
          show serializeBlock b ++ ((b2 :: tl2).map serializeBlock).flatten
            = (blockBody b ++ "\n\n".toList ++ docBody (b2 :: tl2)) ++ "\n\n".toList
          rw [ih (fun x hx => h x (List.mem_cons_of_mem _ hx)) (by simp),
            serializeBlock_eq_body (h b (List.mem_cons_self b _))]
          simp [List.append_assoc]

theorem serializeToMarkdown_eq_docBody {bs : List Block}
    (h : ∀ b ∈ bs, wfBlock b = true) :
    serializeToMarkdown bs = docBody bs := by
  cases hbs : bs with
  | nil => rfl
  | cons b tl =>
      unfold serializeToMarkdown
      subst hbs
      rw [flatten_serialize h (by simp)]
      obtain ⟨h1, h2, h3⟩ := docBody_ends h (by simp)
      refine jsTrim_append_ws ?_ h2 h3
      intro c hc
      rcases hc with _ | ⟨_, h⟩
      · exact isJsWhitespace_nl
      · rcases h with _ | ⟨_, h⟩
        · exact isJsWhitespace_nl
        · cases h

/-- Round-trip of the supported, well-formed subset: parsing the serialized
document reproduces the block sequence. -/
theorem parse_serialize_roundtrip {bs : List Block}
    (hwf : ∀ b ∈ bs, wfBlock b = true) (hsafe : listSafeFrom none bs = true) :
    parseMarkdownToJSON (serializeToMarkdown bs) = bs := by
  rw [serializeToMarkdown_eq_docBody hwf]
  unfold parseMarkdownToJSON
  rw [parse_docBody bs ⟨[], none⟩ hwf hsafe]
  rw [finishPS_foldl_stepPS]
  rfl

/-- C1: the claim as stated is false: a Paragraph block of the supported subset
(single unmarked text run) whose text is `# x` does not survive the round trip;
parsing its serialization yields a Heading block instead. -/
theorem C1_roundtrip_counterexample :
    parseMarkdownToJSON (serializeToMarkdown
      [Block.paragraph [⟨"# x".toList, []⟩]])
      ≠ [Block.paragraph [⟨"# x".toList, []⟩]] := by decide

/-- C1 (amended): round-trip of the supported subset holds for well-formed
blocks — texts nonempty, newline-free and not whitespace-padded, paragraph
texts not claimed by another parser branch, code text fence-free, and no two
same-kind lists separated only by headings: then
`parseMarkdownToJSON (serializeToMarkdown blocks) = blocks`, preserving kind,
text, order, and exact heading level (levels 1-3 are required well-formed). -/
theorem C1_roundtrip_supported_subset (bs : List Block)
    (hwf : ∀ b ∈ bs, wfBlock b = true)
    (hsafe : listSafeFrom none bs = true) :
    parseMarkdownToJSON (serializeToMarkdown bs) = bs :=
  parse_serialize_roundtrip hwf hsafe

/-- C1 witness: a concrete document with all seven supported block kinds
round-trips. -/
theorem C1_roundtrip_witness :
    parseMarkdownToJSON (serializeToMarkdown
      [Block.heading 2 "Title".toList,
       Block.paragraph [⟨"Some text".toList, []⟩],
       Block.bulletList ["a".toList, "b".toList],
       Block.orderedList ["x".toList, "y".toList],
       Block.codeBlock "code line".toList,
       Block.blockquote "quoted".toList,
       Block.horizontalRule])
      = [Block.heading 2 "Title".toList,
         Block.paragraph [⟨"Some text".toList, []⟩],
         Block.bulletList ["a".toList, "b".toList],
         Block.orderedList ["x".toList, "y".toList],
         Block.codeBlock "code line".toList,
         Block.blockquote "quoted".toList,
         Block.horizontalRule] :=
  C1_roundtrip_supported_subset _ (by decide) (by decide)

/-- C9: the claim as stated is false: serializing the single Heading block
`Heading(3, "Hello")` does not yield the string with a trailing blank line,
because `serializeToMarkdown` trims its final output. -/
theorem C9_heading_example_counterexample :
    serializeToMarkdown [Block.heading 3 "Hello".toList]
      ≠ "### Hello\n\n".toList := by decide

/-- C9 (amended): the line `### Hello` parses to Heading(level 3, "Hello");
the per-block serialization rule produces the trailing blank line, but the
full serializer trims it, yielding exactly `### Hello`. -/
theorem C9_heading_example :
    parseMarkdownToJSON "### Hello".toList
      = [Block.heading 3 "Hello".toList] ∧
    serializeBlock (Block.heading 3 "Hello".toList) = "### Hello\n\n".toList ∧
    serializeToMarkdown [Block.heading 3 "Hello".toList]
      = "### Hello".toList := by
  refine ⟨by decide, by decide, by decide⟩

/-- C2: reconciliation preserves identity.  For the inline section
reconciliation of `App.tsx` (user path `editedByUser = true` in
`handleDocUpdate`, AI path `editedByUser = false` in `handleSendMessage`):
the result carries exactly one entry per title of `currentTitles`, in order
(its ids are `currentTitles`); a title with no previous entry gets the fresh
entry `{id := title, editedAt := now, locked := false}`; an entry found in the
previous metadata is carried forward with its `locked` flag unchanged and its
`editedAt` bumped to `now` exactly when the edit came from the user. -/
theorem C2_reconcile_preserves_identity (prev : List SectionMeta)
    (titles : List Str) (now : Nat) (editedByUser : Bool) :
    ((reconcileSections prev titles now editedByUser).map SectionMeta.id
      = titles) ∧
    (∀ (i : Nat) (t : Str), titles[i]? = some t →
      prev.find? (fun s => s.id == t) = none →
      (reconcileSections prev titles now editedByUser)[i]?
        = some ⟨t, now, false⟩) ∧
    (∀ (i : Nat) (t : Str) (m : SectionMeta), titles[i]? = some t →
      prev.find? (fun s => s.id == t) = some m →
      (reconcileSections prev titles now editedByUser)[i]?
        = some ⟨m.id, if editedByUser then now else m.editedAt, m.locked⟩) := by
  refine ⟨?_, ?_, ?_⟩
  · unfold reconcileSections
    rw [List.map_map]
    have hmap : ∀ t ∈ titles,
        (SectionMeta.id ∘ fun t =>
          match prev.find? (fun s => s.id == t) with
          | some m => if editedByUser then { m with editedAt := now } else m
          | none => ⟨t, now, false⟩) t = id t := by
      intro t _
      show SectionMeta.id (match prev.find? (fun s => s.id == t) with
        | some m => if editedByUser then { m with editedAt := now } else m
        | none => ⟨t, now, false⟩) = t
      cases hf : prev.find? (fun s => s.id == t) with
      | none => rfl
      | some m =>
          have hid : m.id = t := by simpa using List.find?_some hf
          cases editedByUser <;> simp [hid]
    rw [List.map_congr_left hmap, List.map_id]
  · intro i t hi hf
    unfold reconcileSections
    rw [List.getElem?_map, hi]
    simp [hf]
  · intro i t m hi hf
    unfold reconcileSections
    rw [List.getElem?_map, hi]
    rcases m with ⟨mid, me, ml⟩
    cases editedByUser <;> simp [hf]

/-- C2 witness: concrete reconciliation with one carried (locked) entry and
one fresh title, on the AI path. -/
theorem C2_reconcile_witness :
    ((reconcileSections [⟨"A".toList, 5, true⟩]
        ["A".toList, "B".toList] 9 false).map SectionMeta.id
      = ["A".toList, "B".toList]) ∧
    (reconcileSections [⟨"A".toList, 5, true⟩]
        ["A".toList, "B".toList] 9 false)[0]?
      = some ⟨"A".toList, 5, true⟩ ∧
    (reconcileSections [⟨"A".toList, 5, true⟩]
        ["A".toList, "B".toList] 9 false)[1]?
      = some ⟨"B".toList, 9, false⟩ := by
  refine ⟨(C2_reconcile_preserves_identity _ _ _ _).1, ?_, ?_⟩
  · exact (C2_reconcile_preserves_identity [⟨"A".toList, 5, true⟩]
      ["A".toList, "B".toList] 9 false).2.2 0 ("A".toList)
      ⟨"A".toList, 5, true⟩ (by decide) (by decide)
  · exact (C2_reconcile_preserves_identity [⟨"A".toList, 5, true⟩]
      ["A".toList, "B".toList] 9 false).2.1 1 ("B".toList)
      (by decide) (by decide)

/-- C3: the lock predicate of `processChatAndDoc` holds exactly when the
`locked` flag is set, or `editedAt` is nonzero and within the 2-minute
recency window of `now`; in particular a `locked = true` section is locked at
every `now`, and a `locked = false, editedAt = 0` section never is. -/
theorem C3_lock_policy (s : SectionMeta) (now : Nat) :
    (sectionLockPred now s = true ↔
      (s.locked = true ∨ (s.editedAt ≠ 0 ∧ now - s.editedAt < 1000 * 60 * 2))) ∧
    (s.locked = true → sectionLockPred now s = true) ∧
    (s.locked = false → s.editedAt = 0 → sectionLockPred now s = false) := by
  refine ⟨?_, ?_, ?_⟩
  · unfold sectionLockPred
    simp only [Bool.or_eq_true, Bool.and_eq_true, decide_eq_true_eq]
    constructor
    · rintro (h | ⟨h1, h2⟩)
      · exact Or.inl h
      · exact Or.inr ⟨by omega, h1⟩
    · rintro (h | ⟨h1, h2⟩)
      · exact Or.inl h
      · exact Or.inr ⟨h2, by omega⟩
  · intro h
    unfold sectionLockPred
    rw [h, Bool.true_or]
  · intro h1 h2
    unfold sectionLockPred
    rw [h1, h2]
    simp

/-- C3 witness: a locked section stays locked after any delay; an untouched
scaffolded section (`editedAt = 0`) is not locked; a 1-minute-old edit is
locked. -/
theorem C3_lock_witness :
    sectionLockPred 100000000 ⟨"A".toList, 0, true⟩ = true ∧
    sectionLockPred 100000000 ⟨"A".toList, 0, false⟩ = false ∧
    sectionLockPred 1060000 ⟨"B".toList, 1000000, false⟩ = true := by
  refine ⟨(C3_lock_policy ⟨"A".toList, 0, true⟩ 100000000).2.1 rfl,
    (C3_lock_policy ⟨"A".toList, 0, false⟩ 100000000).2.2 rfl rfl,
    (C3_lock_policy ⟨"B".toList, 1000000, false⟩ 1060000).1.mpr
      (Or.inr ⟨by decide, by decide⟩)⟩

/-- C4: the claim as stated is false: after a thrown document-update call the
session is not left exactly as it was — `handleSendMessage` still applies its
state update (the returned markdown, equal to the old one, is truthy), so
`lastUpdated` is bumped. -/
theorem C4_rewrite_failure_counterexample :
    sessionAfterSend ⟨"# A".toList, [], [], 0⟩ (Except.error ()) 1
      ≠ ⟨"# A".toList, [], [], 0⟩ := by decide

/-- C4 (amended): when the rewrite collaborator's document-update call throws,
the error is caught inside `processChatAndDoc` and the returned document is
the input document unchanged, so the session's `markdown` field after the
failed call equals its value immediately before the call; the session itself
is still rewritten (timestamp bump, section re-reconciliation), so it is not
left entirely unchanged. -/
theorem C4_rewrite_failure_markdown_preserved (prev : DocumentState)
    (now : Nat) (e : Unit) :
    updatedMarkdownAfter prev.markdown (Except.error e) = prev.markdown ∧
    (sessionAfterSend prev (Except.error e) now).markdown = prev.markdown := by
  refine ⟨rfl, ?_⟩
  unfold sessionAfterSend updatedMarkdownAfter handleSendMessageDoc
  by_cases h : prev.markdown = [] <;> simp [h]

/-- C5: the claim as stated is false: a blank line does not close the open
list — the parser skips blank lines without resetting `currentList`, so
`- a\n\n- b` parses to a single merged BulletList, not two. -/
theorem C5_blank_line_counterexample :
    parseMarkdownToJSON "- a\n\n- b".toList
      = [Block.bulletList ["a".toList, "b".toList]] ∧
    parseMarkdownToJSON "- a\n\n- b".toList
      ≠ [Block.bulletList ["a".toList], Block.bulletList ["b".toList]] := by
  refine ⟨by decide, by decide⟩

/-- C5 (amended): a blank line between two bullet-item lines does NOT close
the open BulletList: the two items are merged into one BulletList block; the
same holds for OrderedList. -/
theorem C5_blank_line_keeps_list_open (a b : Str) (ha : lineOk a = true)
    (hb : lineOk b = true) :
    parseMarkdownToJSON (("- ".toList ++ a) ++ '\n' :: ('\n' :: ("- ".toList ++ b)))
      = [Block.bulletList [a, b]] ∧
    parseMarkdownToJSON "1. a\n\n2. b".toList
      = [Block.orderedList ["a".toList, "b".toList]] := by
  refine ⟨?_, by decide⟩
  obtain ⟨hane, _, _, halast⟩ := lineOk_iff.mp ha
  obtain ⟨hbne, _, _, hblast⟩ := lineOk_iff.mp hb
  unfold parseMarkdownToJSON
  have hnla : ∀ c ∈ "- ".toList ++ a, ¬ c = '\n' := by
    intro c hc
    rcases List.mem_append.mp hc with hc | hc
    · rcases hc with _ | ⟨_, _ | ⟨_, hx⟩⟩
      · decide
      · decide
      · cases hx
    · exact (lineOk_iff.mp ha).2.1 c hc
  have hnlb : ∀ c ∈ "- ".toList ++ b, ¬ c = '\n' := by
    intro c hc
    rcases List.mem_append.mp hc with hc | hc
    · rcases hc with _ | ⟨_, _ | ⟨_, hx⟩⟩
      · decide
      · decide
      · cases hx
    · exact (lineOk_iff.mp hb).2.1 c hc
  rw [splitNl_append_nl,
    show splitNl ('\n' :: ("- ".toList ++ b)) = [] :: splitNl ("- ".toList ++ b)
      from rfl,
    splitNl_no_nl hnla, splitNl_no_nl hnlb, List.singleton_append]
  rw [parseLines_bullet (jsTrimEnd_append_stable hane halast) (by simp)
    (by rw [head?_append_left (by decide)]; decide)
    (by rw [List.isPrefixOf_iff_prefix]; exact List.prefix_append _ _)]
  rw [show pushBullet ⟨[], none⟩ (("- ".toList ++ a).drop 2)
      = ⟨[], some (true, [a], [])⟩ from rfl]
  rw [parseLines_blank (l := []) rfl]
  rw [parseLines_bullet (jsTrimEnd_append_stable hbne hblast) (by simp)
    (by rw [head?_append_left (by decide)]; decide)
    (by rw [List.isPrefixOf_iff_prefix]; exact List.prefix_append _ _)]
  rw [show pushBullet ⟨[], some (true, [a], [])⟩ (("- ".toList ++ b).drop 2)
      = ⟨[], some (true, [a, b], [])⟩ from rfl]
  rw [parseLines_nil]
  rfl

/-- C5 witness: the merge at concrete items `a` and `b`. -/
theorem C5_blank_line_witness :
    parseMarkdownToJSON (("- ".toList ++ "a".toList)
        ++ '\n' :: ('\n' :: ("- ".toList ++ "b".toList)))
      = [Block.bulletList ["a".toList, "b".toList]] :=
  (C5_blank_line_keeps_list_open ("a".toList) ("b".toList)
    (by decide) (by decide)).1

/-- C6: the claim as stated is false: marks are not normalized to the fixed
order bold→italic→code.  For a run with stored mark order `[code, bold]` the
serializer emits `**`x`**` (bold outermost), not the `` `**x**` `` that the
claimed fixed order (bold applied first, backticks last) would produce. -/
theorem C6_mark_order_counterexample :
    serializeToMarkdown [Block.paragraph [⟨"x".toList, [Mark.code, Mark.bold]⟩]]
      = "**`x`**".toList ∧
    "**`x`**".toList ≠ "`**x**`".toList := by
  refine ⟨by decide, by decide⟩

/-- C6 (amended): the serializer applies a run's marks in the order they
appear in the run's mark list, each mark wrapping the text accumulated so far
(so the first stored mark is innermost).  When the stored order is
bold, italic, code the output matches the claimed shape (backticks outermost
around `***text***`); for the stored order code, bold the bold markers are
outermost instead. -/
theorem C6_marks_apply_in_stored_order (t : Str) :
    serializeToMarkdown
        [Block.paragraph [⟨t, [Mark.bold, Mark.italic, Mark.code]⟩]]
      = "`***".toList ++ t ++ "***`".toList ∧
    serializeToMarkdown [Block.paragraph [⟨t, [Mark.code, Mark.bold]⟩]]
      = "**`".toList ++ t ++ "`**".toList := by
  constructor
  · unfold serializeToMarkdown serializeBlock
    simp only [List.map_cons, List.map_nil, List.flatten_cons, List.flatten_nil,
      List.append_nil]
    rw [show runText ⟨t, [Mark.bold, Mark.italic, Mark.code]⟩
        = ("`".toList ++ ("*".toList ++ ("**".toList ++ t ++ "**".toList)
            ++ "*".toList)) ++ "`".toList from rfl]
    rw [if_neg (by simp)]
    rw [jsTrim_append_ws (by intro c hc; rcases hc with _ | ⟨_, _ | ⟨_, hx⟩⟩
          <;> first | exact isJsWhitespace_nl | cases hx)
      (by rw [head?_append_left (by simp), head?_append_left (by decide),
            show ("`".toList).head? = some '`' from rfl]
          exact forall_mem_some (by decide))
      (by rw [getLast?_append_right (by decide),
            show ("`".toList).getLast? = some '`' from by decide]
          exact forall_mem_some (by decide))]
    simp [List.append_assoc]
  · unfold serializeToMarkdown serializeBlock
    simp only [List.map_cons, List.map_nil, List.flatten_cons, List.flatten_nil,
      List.append_nil]
    rw [show runText ⟨t, [Mark.code, Mark.bold]⟩
        = ("**".toList ++ ("`".toList ++ t ++ "`".toList)) ++ "**".toList
        from rfl]
    rw [if_neg (by simp)]
    rw [jsTrim_append_ws (by intro c hc; rcases hc with _ | ⟨_, _ | ⟨_, hx⟩⟩
          <;> first | exact isJsWhitespace_nl | cases hx)
      (by rw [head?_append_left (by simp), head?_append_left (by decide),
            show ("**".toList).head? = some '*' from rfl]
          exact forall_mem_some (by decide))
      (by rw [getLast?_append_right (by decide),
            show ("**".toList).getLast? = some '*' from by decide]
          exact forall_mem_some (by decide))]
    simp [List.append_assoc]

/-- C7: `extractSections` returns exactly the raw lines beginning with `# `
(one hash, one space — deeper headings excluded by the prefix test), each
mapped to the trimmed remainder after the two-character prefix, in document
order with duplicates preserved; and the concrete example from the
specification. -/
theorem C7_extract_sections (md : Str) :
    extractSections md
      = ((splitNl md).filter (fun l => ("# ".toList).isPrefixOf l)).map
          (fun l => jsTrim (l.drop 2)) ∧
    extractSections "# Problem\n\ncontent\n\n# Solution\n".toList
      = ["Problem".toList, "Solution".toList] := by
  refine ⟨?_, by decide⟩
  unfold extractSections
  refine List.map_congr_left ?_
  intro l hl
  have hp := List.of_mem_filter hl
  rw [List.isPrefixOf_iff_prefix] at hp
  obtain ⟨u, hu⟩ := hp
  rw [← hu]
  rw [show ("# ".toList ++ u) = '#' :: (' ' :: u) from rfl]
  rw [show stripOneHash ('#' :: (' ' :: u)) = u from by
    show (if isJsWhitespace ' ' = true then u else '#' :: (' ' :: u)) = u
    rw [if_pos isJsWhitespace_space]]
  rfl

/-- C8: no-op guard on user edits: if the blocks coming from the editing
surface serialize to exactly the session's current markdown, `handleDocUpdate`
returns the previous state object unchanged — in particular `lastUpdated` and
every section's `editedAt` are untouched. -/
theorem C8_noop_guard (prev : DocumentState) (blocks : List Block)
    (json : List Block) (now : Nat)
    (h : serializeToMarkdown blocks = prev.markdown) :
    handleDocUpdate prev (serializeToMarkdown blocks) json now = prev := by
  unfold handleDocUpdate
  rw [if_pos h.symm]

/-- C8 witness: a concrete session whose markdown is the serialization of a
single heading block; re-applying that edit leaves the session untouched. -/
theorem C8_noop_guard_witness :
    handleDocUpdate ⟨"# A".toList, [Block.heading 1 "A".toList], [], 3⟩
        (serializeToMarkdown [Block.heading 1 "A".toList])
        [Block.heading 1 "A".toList] 99
      = ⟨"# A".toList, [Block.heading 1 "A".toList], [], 3⟩ :=
  C8_noop_guard ⟨"# A".toList, [Block.heading 1 "A".toList], [], 3⟩
    [Block.heading 1 "A".toList] [Block.heading 1 "A".toList] 99 (by decide)

/-- C10: the claim as stated is false on lines with trailing whitespace: the
parser trims each line's end before classifying, so `#x ` (hash run not
followed by whitespace) parses to Heading(1, `#x`), whose text is not the
entire original line. -/
theorem C10_hash_no_space_counterexample :
    parseMarkdownToJSON "#x ".toList = [Block.heading 1 "#x".toList] ∧
    ¬ ("#x".toList : Str) = "#x ".toList := by
  refine ⟨by decide, by decide⟩

/-- C10 (amended): a newline-free line whose trimmed form starts with `#` and
whose hash run is not followed by a whitespace character parses to a Heading
whose level is the hash count and whose text is the entire trimmed line,
leading hashes included (hash-stripping applies only when the hash run is
followed by whitespace). -/
theorem C10_hash_not_followed_by_space (l : Str)
    (hnl : ∀ c ∈ l, ¬ c = '\n')
    (h0 : ¬ jsTrimEnd l = [])
    (hh : (jsTrimEnd l).head? = some '#')
    (hns : ∀ c ∈ ((jsTrimEnd l).drop (hashCount (jsTrimEnd l))).head?,
      isJsWhitespace c = false) :
    parseMarkdownToJSON l
      = [Block.heading (hashCount (jsTrimEnd l)) (jsTrimEnd l)] := by
  have hstrip : stripHeadingMark (jsTrimEnd l) = jsTrimEnd l := by
    unfold stripHeadingMark
    rcases hd : (jsTrimEnd l).drop (hashCount (jsTrimEnd l)) with _ | ⟨c, rest⟩
    · rfl
    · have hc := hns c (by rw [hd]; rfl)
      show (if isJsWhitespace c = true then rest else jsTrimEnd l) = jsTrimEnd l
      rw [if_neg (by rw [hc]; simp)]
  unfold parseMarkdownToJSON
  rw [splitNl_no_nl hnl, parseLines_cons, if_neg h0, if_pos hh, hstrip,
    parseLines_nil]
  rfl

/-- C10 witness: the line `#Title` (no whitespace after the hash) parses to a
level-1 heading whose text is the whole line. -/
theorem C10_hash_no_space_witness :
    parseMarkdownToJSON "#Title".toList
      = [Block.heading 1 "#Title".toList] :=
  C10_hash_not_followed_by_space ("#Title".toList) (by decide) (by decide)
    (by decide) (by decide)
